import Mathlib

/-!
Verification development for the kyde-energy-netting settlement core.

This file gives a shallow embedding, in Lean 4, of the parts of the
repository that the specification's claims are about:

* `src/app/logic.py` — cent conversion, the operator-fee pass, the
  min-cost-flow graph construction and transfer extraction, the
  audit hash, the day-close pipeline and the month-close pipeline;
* `src/app/main.py` — the `close_cycle` endpoint's precondition checks;
* `src/app/policy_dsl.py` — the whitelist expression evaluator, the
  tiered tariff, the rule engine's evaluation pass, and the dependency
  ordering of rules.

Modelling conventions, fixed once here:

* Python `Decimal` values are modelled as `ℚ`.  `Decimal` context
  rounding at 28 significant digits is not modelled (no claim depends
  on quotient digits beyond divisions by powers of ten, which are
  exact); `quantize` calls are modelled exactly, with the rounding
  mode the source requests (`ROUND_HALF_UP` where written, and the
  default `ROUND_HALF_EVEN` otherwise).
* Python `dict`s keyed by participant id / account name are modelled
  as association lists in insertion order, which is exactly the
  iteration order of a Python dict.  SQL result sets whose order the
  backend does not fix (`GROUP BY` rows) are modelled in
  first-occurrence order; no theorem below depends on that choice.
* Database state is a record of lists; each ORM `add`+`commit` is an
  append, matching insertion order readback.
* `networkx.network_simplex` is an external library call; it is
  modelled as an oracle `solve : NetGraph → Option NetFlow` together
  with the predicate `Feasible` stating the demand/capacity/conservation
  constraints any flow it returns satisfies.  Theorems about the close
  pipelines quantify over the oracle.
-/

/-! ### Decimal rounding helpers (`decimal.Decimal` quantize modes) -/

/-- Round a rational to an integer, half away from zero
(`decimal.ROUND_HALF_UP`). -/
def halfUpZ (q : ℚ) : ℤ :=
  if 0 ≤ q then ⌊q + 1/2⌋ else -⌊-q + 1/2⌋

/-- Round a rational to an integer, ties to even
(`decimal.ROUND_HALF_EVEN`, the default context rounding). -/
def halfEvenZ (q : ℚ) : ℤ :=
  let f := ⌊q⌋
  let r := q - f
  if r < 1/2 then f
  else if 1/2 < r then f + 1
  else if 2 ∣ f then f else f + 1

/-- `x.quantize(Decimal("0.01"))` — default half-even rounding. -/
def quantize2 (q : ℚ) : ℚ := (halfEvenZ (q * 100) : ℚ) / 100

/-- `x.quantize(Decimal("0.0001"))` — default half-even rounding. -/
def quantize4 (q : ℚ) : ℚ := (halfEvenZ (q * 10000) : ℚ) / 10000

/-- Python `int()` truncation toward zero of a `Decimal`. -/
def qtrunc (q : ℚ) : ℤ := if 0 ≤ q then ⌊q⌋ else -⌊-q⌋

/-- `logic._to_cents`: `int((d * 100).quantize(Decimal("1"), ROUND_HALF_UP))`. -/
def to_cents (d : ℚ) : ℤ := halfUpZ (d * 100)

/-- `logic._from_cents`: `(Decimal(i) / Decimal(100)).quantize(Decimal("0.01"))`
(the quantize is exact here). -/
def from_cents (i : ℤ) : ℚ := (i : ℚ) / 100

/-- A rational that is a whole number of cents (all persisted amounts are). -/
def IsCents (q : ℚ) : Prop := ∃ n : ℤ, q * 100 = (n : ℚ)

/-! ### Association-list operations mirroring Python dict updates -/

/-- `d[k] = x` on a dict modelled as an assoc list: replace the first
binding of `k`, else append a new binding (dict insertion order). -/
def setVal {κ α : Type} [BEq κ] : List (κ × α) → κ → α → List (κ × α)
  | [], k, x => [(k, x)]
  | (q, v) :: t, k, x => if q == k then (q, x) :: t else (q, v) :: setVal t k x

/-- `d[k] = d.get(k, 0) + x`: add to the first binding of `k`, else append. -/
def addVal {κ : Type} [BEq κ] : List (κ × ℚ) → κ → ℚ → List (κ × ℚ)
  | [], k, x => [(k, x)]
  | (q, v) :: t, k, x => if q == k then (q, v + x) :: t else (q, v) :: addVal t k x

/-- `d.get(k)` on an assoc list. -/
def getVal {κ α : Type} [BEq κ] (l : List (κ × α)) (k : κ) : Option α :=
  (l.find? (fun x => x.1 == k)).map (·.2)

/-- Sum of the values of an assoc list. -/
def valsSum {κ : Type} (l : List (κ × ℚ)) : ℚ := (l.map (·.2)).sum

/-! ### Decimal-to-string formatting for two-decimal amounts

`str(d)` for a two-decimal `Decimal` prints sign, integer part, a dot
and two fraction digits.  All amounts the source formats this way are
two-decimal (they come out of `quantize(Decimal("0.01"))` or arithmetic
on such values), so we format via the cent value. -/

/-- Render an integer number of cents the way `str` renders the
corresponding two-decimal `Decimal` (e.g. `-350 ↦ "-3.50"`). -/
def centsStr (n : ℤ) : String :=
  (if n < 0 then "-" else "")
    ++ toString (n.natAbs / 100) ++ "."
    ++ (if n.natAbs % 100 < 10 then "0" else "") ++ toString (n.natAbs % 100)

/-- `str(d)` for a two-decimal `Decimal` amount `d` (on two-decimal
values the half-even rounding is the identity, so this is exact there). -/
def decStr (q : ℚ) : String := centsStr (halfEvenZ (q * 100))

/-! ### SHA-256 over a byte list (pure `Nat` arithmetic) -/

/-- Truncate to a 32-bit word. -/
def w32 (n : Nat) : Nat := n % 4294967296

/-- 32-bit right rotation. -/
def rotr32 (k x : Nat) : Nat := w32 ((x >>> k) ||| (x <<< (32 - k)))

/-- SHA-256 round constants. -/
def sha256K : List Nat :=
  [1116352408, 1899447441, 3049323471, 3921009573, 961987163,
   1508970993, 2453635748, 2870763221, 3624381080, 310598401,
   607225278, 1426881987, 1925078388, 2162078206, 2614888103,
   3248222580, 3835390401, 4022224774, 264347078, 604807628,
   770255983, 1249150122, 1555081692, 1996064986, 2554220882,
   2821834349, 2952996808, 3210313671, 3336571891, 3584528711,
   113926993, 338241895, 666307205, 773529912, 1294757372,
   1396182291, 1695183700, 1986661051, 2177026350, 2456956037,
   2730485921, 2820302411, 3259730800, 3345764771, 3516065817,
   3600352804, 4094571909, 275423344, 430227734, 506948616,
   659060556, 883997877, 958139571, 1322822218, 1537002063,
   1747873779, 1955562222, 2024104815, 2227730452, 2361852424,
   2428436474, 2756734187, 3204031479, 3329325298]

/-- SHA-256 initial hash state. -/
def sha256H0 : List Nat :=
  [1779033703, 3144134277, 1013904242, 2773480762, 1359893119,
   2600822924, 528734635, 1541459225]

/-- Big-endian bytes of `n`, `k` bytes wide. -/
def beBytes : Nat → Nat → List Nat
  | 0, _ => []
  | k + 1, n => beBytes k (n / 256) ++ [n % 256]

/-- SHA-256 message padding. -/
def sha256pad (msg : List Nat) : List Nat :=
  let lenBits := msg.length * 8
  let padLen := (55 + 64 - msg.length % 64) % 64 + 1
  msg ++ (0x80 :: List.replicate (padLen - 1) 0) ++ beBytes 8 lenBits

/-- Combine 4 bytes into one big-endian 32-bit word. -/
def wordsOfBytes : List Nat → List Nat
  | b0 :: b1 :: b2 :: b3 :: rest =>
      (((b0 * 256 + b1) * 256 + b2) * 256 + b3) :: wordsOfBytes rest
  | _ => []

/-- The 64-entry SHA-256 message schedule from a 16-word block. -/
def sha256schedule (block : List Nat) : List Nat :=
  (List.range 48).foldl
    (fun ws i =>
      let w15 := ws.getD (i + 1) 0
      let w2 := ws.getD (i + 14) 0
      let s0 := (rotr32 7 w15) ^^^ (rotr32 18 w15) ^^^ (w15 >>> 3)
      let s1 := (rotr32 17 w2) ^^^ (rotr32 19 w2) ^^^ (w2 >>> 10)
      ws ++ [w32 (ws.getD i 0 + s0 + ws.getD (i + 9) 0 + s1)])
    block

/-- One SHA-256 compression step over a 64-word schedule. -/
def sha256compress (h : List Nat) (block : List Nat) : List Nat :=
  let ws := sha256schedule block
  let st := (List.range 64).foldl
    (fun st i =>
      match st with
      | [a, b, c, d, e, f, g, hh] =>
        let s1 := (rotr32 6 e) ^^^ (rotr32 11 e) ^^^ (rotr32 25 e)
        let ch := (e &&& f) ^^^ ((0xffffffff ^^^ e) &&& g)
        let t1 := w32 (hh + s1 + ch + sha256K.getD i 0 + ws.getD i 0)
        let s0 := (rotr32 2 a) ^^^ (rotr32 13 a) ^^^ (rotr32 22 a)
        let mj := (a &&& b) ^^^ (a &&& c) ^^^ (b &&& c)
        let t2 := w32 (s0 + mj)
        [w32 (t1 + t2), a, b, c, w32 (d + t1), e, f, g]
      | other => other) h
  (h.zip st).map (fun p => w32 (p.1 + p.2))

/-- Process the padded message in 64-byte chunks. -/
def sha256chunks (h : List Nat) (bytes : List Nat) : List Nat :=
  if bytes.isEmpty then h
  else sha256chunks (sha256compress h (wordsOfBytes (bytes.take 64))) (bytes.drop 64)
termination_by bytes.length
decreasing_by
  simp only [List.length_drop]
  have : bytes ≠ [] := by simpa [List.isEmpty_iff] using (by assumption : ¬bytes.isEmpty = true)
  have : 0 < bytes.length := List.length_pos.mpr this
  omega

/-- One lowercase hex digit. -/
def hexDigit (n : Nat) : Char := Char.ofNat (if n < 10 then 48 + n else 87 + n)

/-- Lowercase hex, `k` digits wide. -/
def hexOfNat : Nat → Nat → String
  | 0, _ => ""
  | k + 1, n => hexOfNat k (n / 16) ++ String.singleton (hexDigit (n % 16))

/-- `hashlib.sha256(bytes).hexdigest()`. -/
def sha256hex (bytes : List Nat) : String :=
  String.join ((sha256chunks sha256H0 (sha256pad bytes)).map (hexOfNat 8))

/-- UTF-8 encoding of one character. -/
def charUtf8 (c : Char) : List Nat :=
  let n := c.toNat
  if n < 0x80 then [n]
  else if n < 0x800 then [0xc0 ||| (n >>> 6), 0x80 ||| (n &&& 0x3f)]
  else if n < 0x10000 then
    [0xe0 ||| (n >>> 12), 0x80 ||| ((n >>> 6) &&& 0x3f), 0x80 ||| (n &&& 0x3f)]
  else
    [0xf0 ||| (n >>> 18), 0x80 ||| ((n >>> 12) &&& 0x3f),
     0x80 ||| ((n >>> 6) &&& 0x3f), 0x80 ||| (n &&& 0x3f)]

/-- `s.encode("utf-8")` as a byte list. -/
def utf8Bytes (s : String) : List Nat := (s.data.map charUtf8).flatten

/-! ### The audit hash `logic.merkleish_hash` -/

/-- One serialized transfer record, the dict
`with keys "from_id", "to_id", "amount_eur"` (amount as the string the
source produces). -/
structure TransferRec where
  from_id : ℤ
  to_id : ℤ
  amount_eur : String
  deriving DecidableEq, Repr

/-- The sort key order `(x["from_id"], x["to_id"], x["amount_eur"])`,
Python tuple comparison: lexicographic, strings compared as strings. -/
def transferLe (a b : TransferRec) : Prop :=
  a.from_id < b.from_id ∨
    (a.from_id = b.from_id ∧
      (a.to_id < b.to_id ∨ (a.to_id = b.to_id ∧ a.amount_eur ≤ b.amount_eur)))

instance : DecidableRel transferLe := fun a b => by
  unfold transferLe; infer_instance

/-- `json.dumps` of one transfer dict with `separators=(",",":")` and
insertion key order (the amount strings contain only digits, a dot and
a minus sign, so no JSON escaping applies). -/
def transferJson (t : TransferRec) : String :=
  "\x7b\"from_id\":" ++ toString t.from_id ++ ",\"to_id\":" ++ toString t.to_id
    ++ ",\"amount_eur\":\"" ++ t.amount_eur ++ "\"\x7d"

/-- `json.dumps(sorted(items, key=...), separators=(",",":"))`.  Python's
`sorted` is a stable sort; since the key is the whole record the stable
sort is determined by the order alone, and we model it with insertion
sort. -/
def transfersJson (items : List TransferRec) : String :=
  "[" ++ String.intercalate "," ((items.insertionSort transferLe).map transferJson) ++ "]"

/-- `logic.merkleish_hash`: canonical serialization of the sorted
records, then SHA-256 hex. -/
def merkleish_hash (items : List TransferRec) : String :=
  sha256hex (utf8Bytes (transfersJson items))

/-! ### The settlement optimizer (`logic._balances_to_graph`,
`logic.optimize_edges`) -/

/-- Participant ids (`Participant.id`). -/
abbrev Pid := ℤ

/-- `debtors = {pid: -bal for pid, bal in balances.items() if bal < 0}`. -/
def debtorsOf (balances : List (Pid × ℚ)) : List (Pid × ℚ) :=
  (balances.filter (fun x => x.2 < 0)).map (fun x => (x.1, -x.2))

/-- `creditors = {pid: bal for pid, bal in balances.items() if bal > 0}`. -/
def creditorsOf (balances : List (Pid × ℚ)) : List (Pid × ℚ) :=
  balances.filter (fun x => 0 < x.2)

/-- Total debtor cents, `sum(_to_cents(v) for v in debtors.values())`. -/
def totalDebtCents (balances : List (Pid × ℚ)) : ℤ :=
  ((debtorsOf balances).map (fun x => to_cents x.2)).sum

/-- Total creditor cents. -/
def totalCreditCents (balances : List (Pid × ℚ)) : ℤ :=
  ((creditorsOf balances).map (fun x => to_cents x.2)).sum

/-- The flow network `_balances_to_graph` builds: SRC supplies
`totalDebt`, SINK demands it; `SRC → D_pid` edges carry debtor cent
capacities, `C_pid → SINK` edges creditor cent capacities; every
`(debtor, creditor)` pair is joined by a capacity-1 activation edge of
weight `fc` into an `ACT` node, then a capacity-`10^12` edge of weight
`vc` into the creditor. -/
structure NetGraph where
  debtors : List (Pid × ℤ)
  creditors : List (Pid × ℤ)
  totalDebt : ℤ
  fc : ℤ
  vc : ℤ
  deriving Repr

/-- `logic._balances_to_graph`: convert to cents, check the totals
within one minor unit, otherwise `raise ValueError("Imbalance in totals
(rounding)")`, and build the graph. -/
def balances_to_graph (balances : List (Pid × ℚ))
    (fixed_cost variable_cost_rate : ℚ) : Except String NetGraph :=
  let total_debt := totalDebtCents balances
  let total_credit := totalCreditCents balances
  if 1 < (total_debt - total_credit).natAbs then
    Except.error "Imbalance in totals (rounding)"
  else
    Except.ok
      { debtors := (debtorsOf balances).map (fun x => (x.1, to_cents x.2))
        creditors := (creditorsOf balances).map (fun x => (x.1, to_cents x.2))
        totalDebt := total_debt
        fc := to_cents fixed_cost
        vc := max 1 (qtrunc (variable_cost_rate * 100000)) }

/-- An integral flow on the constructed network, one component per edge
layer: `SRC → D_d`, `D_d → ACT_d_c`, `ACT_d_c → C_c`, `C_c → SINK`. -/
structure NetFlow where
  sd : Pid → ℤ
  da : Pid → Pid → ℤ
  ac : Pid → Pid → ℤ
  cs : Pid → ℤ

/-- Feasibility of a flow for the graph: nonnegativity, the edge
capacities (`SRC → D` at the debt cents, `D → ACT` at 1, `ACT → C` at
`10^12`, `C → SINK` at the credit cents), conservation at every
intermediate node, and the SRC/SINK demands.  `network_simplex` returns
a flow satisfying exactly these constraints or raises
`NetworkXUnfeasible`. -/
def Feasible (g : NetGraph) (f : NetFlow) : Prop :=
  (∀ p ∈ g.debtors, 0 ≤ f.sd p.1 ∧ f.sd p.1 ≤ p.2) ∧
  (∀ d c : Pid, 0 ≤ f.da d c ∧ f.da d c ≤ 1) ∧
  (∀ d c : Pid, 0 ≤ f.ac d c ∧ f.ac d c ≤ 10 ^ 12) ∧
  (∀ p ∈ g.creditors, 0 ≤ f.cs p.1 ∧ f.cs p.1 ≤ p.2) ∧
  (∀ p ∈ g.debtors, f.sd p.1 = (g.creditors.map (fun c => f.da p.1 c.1)).sum) ∧
  (∀ d c : Pid, f.da d c = f.ac d c) ∧
  (∀ p ∈ g.creditors, (g.debtors.map (fun d => f.ac d.1 p.1)).sum = f.cs p.1) ∧
  (g.debtors.map (fun d => f.sd d.1)).sum = g.totalDebt ∧
  (g.creditors.map (fun c => f.cs c.1)).sum = g.totalDebt

/-- Read back the flow on the `ACT_d_c → C_c` edges in node insertion
order (debtor-major), keeping pairs with positive cents
(`optimize_edges`'s extraction loop). -/
def extract_edges (g : NetGraph) (f : NetFlow) : List (Pid × Pid × ℚ) :=
  (g.debtors.map (fun d =>
    g.creditors.filterMap (fun c =>
      let cents := f.ac d.1 c.1
      if 0 < cents then some (d.1, c.1, from_cents cents) else none))).flatten

/-- `logic.optimize_edges`, with `network_simplex` as the oracle
`solve`; `none` models `NetworkXUnfeasible`. -/
def optimize_edges (solve : NetGraph → Option NetFlow)
    (balances : List (Pid × ℚ)) (fixed_cost variable_cost_rate : ℚ) :
    Except String (List (Pid × Pid × ℚ)) :=
  if balances.isEmpty then Except.ok []
  else
    match balances_to_graph balances fixed_cost variable_cost_rate with
    | Except.error e => Except.error e
    | Except.ok g =>
      match solve g with
      | none => Except.error "NetworkXUnfeasible"
      | some f => Except.ok (extract_edges g f)

/-! ### The operator-fee pass (`logic._apply_operator_fee`) -/

/-- `logic._apply_operator_fee`: for every non-operator participant
with a positive balance, skim `quantize2(bal * pct)` and credit it to
the operator; `not operator_id or not pct` returns the map unchanged.
The loop iterates the snapshot `list(updated.items())`, i.e. the
original entries, threading the updated dict. -/
def apply_operator_fee (balances : List (Pid × ℚ)) (operator_id : Option Pid)
    (pct : ℚ) : List (Pid × ℚ) :=
  match operator_id with
  | none => balances
  | some op =>
    if pct = 0 then balances
    else
      balances.foldl
        (fun updated x =>
          if x.1 == op then updated
          else if 0 < x.2 then
            let fee := quantize2 (x.2 * pct)
            addVal (setVal updated x.1 (x.2 - fee)) op fee
          else updated)
        balances

/-! ### Database state for the closing state machine -/

/-- A `TradingDay` row. -/
structure DayRec where
  cycleLabel : String
  dateStr : String
  status : String
  deriving DecidableEq, Repr

/-- A `LedgerEntry` row; `event_ts` within the day window is modelled
by storing the day the timestamp falls in. -/
structure LedgerEntry where
  cycleLabel : String
  dateStr : String
  pid : Pid
  amount : ℚ
  deriving DecidableEq, Repr

/-- A `DayNet` row (day key modelled by `(cycleLabel, dateStr)`). -/
structure DayNetRec where
  cycleLabel : String
  dateStr : String
  pid : Pid
  net : ℚ
  deriving DecidableEq, Repr

/-- An `InternalTransfer` row. -/
structure TransferRow where
  cycleLabel : String
  dateStr : String
  fromId : Pid
  toId : Pid
  amount : ℚ
  deriving DecidableEq, Repr

/-- A `SettlementRun` row; `summary` is `none` until (and unless) the
summary assignment succeeds. -/
structure RunSummary where
  participants : ℕ
  payout_count : ℕ
  audit_hash : String
  fixed_cost : ℚ
  variable_cost : ℚ
  deriving DecidableEq, Repr

structure RunRec where
  cycleLabel : String
  policyVersion : String
  summary : Option RunSummary
  deriving DecidableEq, Repr

/-- A `PayoutInstruction` row. -/
structure PayoutRow where
  pid : Pid
  amount : ℚ
  remittance : String
  deriving DecidableEq, Repr

/-- The persisted state the closing state machine reads and writes:
cycles and days with status, the ledger, DayNets, internal transfers,
settlement runs and payout instructions, the participant table's
OPERATOR row reduced to its id, and the policy store reduced to
`(version, operator_fee_pct)`. -/
structure Db where
  cycles : List (String × String)
  days : List DayRec
  ledger : List LedgerEntry
  dayNets : List DayNetRec
  transfers : List TransferRow
  operatorId : Option Pid
  policies : List (String × ℚ)
  runs : List RunRec
  payouts : List PayoutRow
  deriving Repr

/-- `logic.get_or_create_cycle`. -/
def getOrCreateCycle (db : Db) (label : String) : Db × (String × String) :=
  match db.cycles.find? (fun c => c.1 == label) with
  | some c => (db, c)
  | none =>
    let c := (label, "open")
    ({ db with cycles := db.cycles ++ [c] }, c)

/-- `logic.get_or_create_day`. -/
def getOrCreateDay (db : Db) (label dateStr : String) : Db × DayRec :=
  let (db1, _) := getOrCreateCycle db label
  match db1.days.find? (fun d => d.cycleLabel == label && d.dateStr == dateStr) with
  | some d => (db1, d)
  | none =>
    let d : DayRec := ⟨label, dateStr, "open"⟩
    ({ db1 with days := db1.days ++ [d] }, d)

/-- Set the first matching `TradingDay` row to `"closed"`
(`day.status = "closed"; db.commit()`). -/
def closeFirstDay : List DayRec → String → String → List DayRec
  | [], _, _ => []
  | d :: t, label, dateStr =>
    if d.cycleLabel == label && d.dateStr == dateStr then
      { d with status := "closed" } :: t
    else d :: closeFirstDay t label dateStr

/-- Set the first matching cycle row to `"closed"`. -/
def closeFirstCycle : List (String × String) → String → List (String × String)
  | [], _ => []
  | c :: t, label => if c.1 == label then (c.1, "closed") :: t else c :: closeFirstCycle t label

/-- `logic.compute_day_balances`: sum the day's ledger postings per
participant and quantize to two decimals.  `GROUP BY` row order is
backend-dependent; we fix first-occurrence order (no theorem depends
on it). -/
def compute_day_balances (db : Db) (label dateStr : String) : List (Pid × ℚ) :=
  let entries := db.ledger.filter (fun e => e.cycleLabel == label && e.dateStr == dateStr)
  let grouped := entries.foldl (fun acc e => addVal acc e.pid e.amount) []
  grouped.map (fun x => (x.1, quantize2 x.2))

/-- `logic.compute_month_balances_from_daynets`: sum the cycle's
DayNets per participant and quantize to two decimals. -/
def compute_month_balances (db : Db) (label : String) : List (Pid × ℚ) :=
  let rows := db.dayNets.filter (fun r => r.cycleLabel == label)
  let grouped := rows.foldl (fun acc r => addVal acc r.pid r.net) []
  grouped.map (fun x => (x.1, quantize2 x.2))

/-- The DayNet rows persisted for one day, in insertion order. -/
def dayNetsFor (db : Db) (label dateStr : String) : List DayNetRec :=
  db.dayNets.filter (fun r => r.cycleLabel == label && r.dateStr == dateStr)

/-- The internal-transfer rows persisted for one day, in insertion order. -/
def transfersFor (db : Db) (label dateStr : String) : List TransferRow :=
  db.transfers.filter (fun r => r.cycleLabel == label && r.dateStr == dateStr)

/-- What `close_trading_day` returns: the day status, the
`{"participant_id", "net_eur"}` items, and the audit hash over the
edge set. -/
structure DayCloseOut where
  status : String
  nets : List (Pid × String)
  audit : String
  deriving DecidableEq, Repr

/-- `logic.close_trading_day`.  Re-close of a closed day reads back the
persisted rows; a first close aggregates, applies the operator fee,
persists DayNets (committed), optimizes, persists transfers and flips
the status.  The returned `Db` is the committed state even when the
optimizer raises (`Except.error`), which models the exception
propagating after the DayNet commit. -/
def close_trading_day (solve : NetGraph → Option NetFlow) (db : Db)
    (label dateStr : String) (operator_fee_pct : ℚ)
    (fixed_cost variable_cost : ℚ) : Db × Except String DayCloseOut :=
  let (db1, day) := getOrCreateDay db label dateStr
  if day.status == "closed" then
    let items := (dayNetsFor db1 label dateStr).map
      (fun r => (r.pid, decStr (quantize2 r.net)))
    let edges_out := (transfersFor db1 label dateStr).map
      (fun r => TransferRec.mk r.fromId r.toId (decStr (quantize2 r.amount)))
    (db1, Except.ok ⟨day.status, items, merkleish_hash edges_out⟩)
  else
    let balances :=
      apply_operator_fee (compute_day_balances db1 label dateStr)
        db1.operatorId operator_fee_pct
    let db2 := { db1 with
      dayNets := db1.dayNets ++ balances.map (fun x => DayNetRec.mk label dateStr x.1 x.2) }
    let nets_out := balances.map (fun x => (x.1, decStr x.2))
    match optimize_edges solve balances fixed_cost variable_cost with
    | Except.error e => (db2, Except.error e)
    | Except.ok edges =>
      let db3 := { db2 with
        transfers := db2.transfers ++ edges.map (fun e : Pid × Pid × ℚ => TransferRow.mk label dateStr e.1 e.2.1 e.2.2) }
      let edge_rows := edges.map (fun e => TransferRec.mk e.1 e.2.1 (decStr e.2.2))
      let db4 := { db3 with days := closeFirstDay db3.days label dateStr }
      (db4, Except.ok ⟨"closed", nets_out, merkleish_hash edge_rows⟩)

/-- `logic.run_monthly_settlement`.  Month balances from DayNets, the
operator-fee pass, the optimizer, then the run and payout rows are
committed.  The summary assignment hashes the payout dicts, which lack
the `"from_id"` key the sort key reads, so on a nonempty payout list it
raises `KeyError` after those commits; with no payouts it hashes the
empty list. -/
def run_monthly_settlement (solve : NetGraph → Option NetFlow) (db : Db)
    (label policyVersion : String) (operator_fee_pct : ℚ)
    (fixed_cost variable_cost : ℚ) : Db × Except String (Option RunSummary) :=
  let balances :=
    apply_operator_fee (compute_month_balances db label) db.operatorId operator_fee_pct
  match optimize_edges solve balances fixed_cost variable_cost with
  | Except.error e => (db, Except.error e)
  | Except.ok edges =>
    let payoutRows := edges.map
      (fun e => PayoutRow.mk e.2.1 e.2.2 ("Settlement " ++ label))
    if edges.isEmpty then
      let summary : RunSummary :=
        ⟨balances.length, payoutRows.length, merkleish_hash [], fixed_cost, variable_cost⟩
      ({ db with
          runs := db.runs ++ [⟨label, policyVersion, some summary⟩]
          payouts := db.payouts ++ payoutRows },
        Except.ok (some summary))
    else
      ({ db with
          runs := db.runs ++ [⟨label, policyVersion, none⟩]
          payouts := db.payouts ++ payoutRows },
        Except.error "KeyError: from_id")

/-- Errors of the `close_cycle` endpoint. -/
inductive CycleErr where
  | alreadyClosed : CycleErr
  | openDays : ℕ → CycleErr
  | policyNotFound : CycleErr
  | settlement : String → CycleErr
  deriving DecidableEq, Repr

/-- `open_days = db.query(TradingDay).filter_by(cycle_id=..., status="open").count()`. -/
def openDayCount (db : Db) (label : String) : ℕ :=
  (db.days.filter (fun d => d.cycleLabel == label && d.status == "open")).length

/-- `main.close_cycle`: reject a closed cycle, reject while any
TradingDay of the cycle is open (naming the count), reject a missing
policy version, else run the monthly settlement and flip the cycle
status. -/
def close_cycle (solve : NetGraph → Option NetFlow) (db : Db)
    (label policyVersion : String) (fixed_cost variable_cost : ℚ) :
    Db × Except CycleErr (Option RunSummary) :=
  let (db1, cycle) := getOrCreateCycle db label
  if cycle.2 == "closed" then (db1, Except.error CycleErr.alreadyClosed)
  else
    let n := openDayCount db1 label
    if n ≠ 0 then (db1, Except.error (CycleErr.openDays n))
    else
      match db1.policies.find? (fun p => p.1 == policyVersion) with
      | none => (db1, Except.error CycleErr.policyNotFound)
      | some pol =>
        match run_monthly_settlement solve db1 label policyVersion pol.2
          fixed_cost variable_cost with
        | (db2, Except.error e) => (db2, Except.error (CycleErr.settlement e))
        | (db2, Except.ok summary) =>
          ({ db2 with cycles := closeFirstCycle db2.cycles label }, Except.ok summary)

/-! ### The expression sandbox (`policy_dsl.SafeEvaluator`, `safe_eval`)

Python parses the expression string with `ast.parse(expr, mode="eval")`
and walks the tree; we embed the tree directly.  `PExpr.other` stands
for any syntax node the evaluator has no `visit_` method for (and so
falls to `generic_visit`); `PExpr.constBad` stands for a `Constant`
node whose value is not int/float/numeric-str.  An `ast.Call` carries
both positional `args` and `keywords` (each keyword is an optional
name — `None` for a `**`-expansion — plus a value expression);
`visit_Call` reads only `node.func` and `node.args`, never
`node.keywords`. -/

mutual

inductive PExpr where
  | name (id : String) : PExpr
  | constNum (v : ℚ) : PExpr
  | constBad : PExpr
  | binop (op : String) (l r : PExpr) : PExpr
  | unop (op : String) (e : PExpr) : PExpr
  | call (f : PExpr) (args : PArgs) (keywords : PKeywords) : PExpr
  | attribute (e : PExpr) (attr : String) : PExpr
  | other (kind : String) : PExpr

inductive PArgs where
  | nil : PArgs
  | cons (head : PExpr) (tail : PArgs) : PArgs

inductive PKeywords where
  | nil : PKeywords
  | cons (kw : Option String) (value : PExpr) (tail : PKeywords) : PKeywords

end

/-- `_ALLOWED_NAMES`. -/
def allowed_names : List String :=
  ["kwh", "price_ct_per_kwh", "feedin_ct_per_kwh", "amount_eur_prev",
   "base_sum", "percent", "value", "qty"]

/-- `_ALLOWED_FUNCS`. -/
def allowed_funcs : List String := ["min", "max", "round"]

/-- `min` of a nonempty list of rationals (Python `min` raises on an
empty sequence). -/
def minQ : List ℚ → Except String ℚ
  | [] => Except.error "min arg is an empty sequence"
  | x :: t => Except.ok (t.foldl min x)

def maxQ : List ℚ → Except String ℚ
  | [] => Except.error "max arg is an empty sequence"
  | x :: t => Except.ok (t.foldl max x)

/-- `round(x)` / `round(x, s)` in `visit_Call`: half-up quantize to the
scale `10 ** -int(s)`. -/
def roundHalfUpScale (x : ℚ) (s : ℤ) : ℚ :=
  (halfUpZ (x * 10 ^ s) : ℚ) / (10 ^ s : ℚ)

mutual

/-- `SafeEvaluator.visit` / `safe_eval`, over the embedded tree.
Errors are the `ValueError`s the evaluator raises; evaluation order
matches the source (operands before the operator dispatch, the callee
check before the arguments).  The `keywords` of a call are ignored
entirely, exactly as `visit_Call` ignores `node.keywords`. -/
def safe_eval_ast (e : PExpr) (vars : String → ℚ) : Except String ℚ :=
  match e with
  | PExpr.name id =>
    if id ∈ allowed_names then Except.ok (vars id)
    else Except.error ("name " ++ id ++ " not allowed")
  | PExpr.constNum v => Except.ok v
  | PExpr.constBad => Except.error "constant not allowed"
  | PExpr.binop op l r =>
    match safe_eval_ast l vars with
    | Except.error m => Except.error m
    | Except.ok a =>
      match safe_eval_ast r vars with
      | Except.error m => Except.error m
      | Except.ok b =>
        if op = "Add" then Except.ok (a + b)
        else if op = "Sub" then Except.ok (a - b)
        else if op = "Mult" then Except.ok (a * b)
        else if op = "Div" then Except.ok (if b ≠ 0 then a / b else 0)
        else Except.error "Operator not allowed"
  | PExpr.unop op e =>
    match safe_eval_ast e vars with
    | Except.error m => Except.error m
    | Except.ok v =>
      if op = "USub" then Except.ok (-v)
      else if op = "UAdd" then Except.ok v
      else Except.error "Unary op not allowed"
  | PExpr.call f args _ =>
    match f with
    | PExpr.name fid =>
      if fid ∈ allowed_funcs then
        match eval_args args vars with
        | Except.error m => Except.error m
        | Except.ok vs =>
          if fid = "min" then minQ vs
          else if fid = "max" then maxQ vs
          else
            match vs with
            | [x] => Except.ok ((halfUpZ x : ℚ))
            | [x, s] => Except.ok (roundHalfUpScale x (qtrunc s))
            | _ => Except.error "bad round args"
      else Except.error "function not allowed"
    | _ => Except.error "function not allowed"
  | PExpr.attribute _ _ => Except.error "expression not allowed"
  | PExpr.other _ => Except.error "expression not allowed"

/-- The argument list comprehension `[self.visit(a) for a in node.args]`:
left to right, first error aborts. -/
def eval_args (args : PArgs) (vars : String → ℚ) : Except String (List ℚ) :=
  match args with
  | PArgs.nil => Except.ok []
  | PArgs.cons a t =>
    match safe_eval_ast a vars with
    | Except.error m => Except.error m
    | Except.ok v =>
      match eval_args t vars with
      | Except.error m => Except.error m
      | Except.ok vs => Except.ok (v :: vs)

end

mutual

/-- The expression contains a construct outside the whitelist
anywhere in the tree, keyword-argument values included: an identifier
outside `_ALLOWED_NAMES`, an attribute access, a call whose callee is
not one of `min`/`max`/`round` by name, a binary operator outside
`+ - * /`, a unary operator outside `+ -`, or a syntax node kind the
evaluator does not visit.  This is the claim's notion of "the
expression contains". -/
def containsBad (e : PExpr) : Bool :=
  match e with
  | PExpr.name id => decide (id ∉ allowed_names)
  | PExpr.constNum _ => false
  | PExpr.constBad => false
  | PExpr.binop op l r =>
    (decide (op ≠ "Add" ∧ op ≠ "Sub" ∧ op ≠ "Mult" ∧ op ≠ "Div"))
      || containsBad l || containsBad r
  | PExpr.unop op e => (decide (op ≠ "USub" ∧ op ≠ "UAdd")) || containsBad e
  | PExpr.call f args kws =>
    match f with
    | PExpr.name fid => decide (fid ∉ allowed_funcs) || argsContainBad args || kwsContainBad kws
    | _ => true
  | PExpr.attribute _ _ => true
  | PExpr.other _ => true

def argsContainBad (args : PArgs) : Bool :=
  match args with
  | PArgs.nil => false
  | PArgs.cons a t => containsBad a || argsContainBad t

def kwsContainBad (kws : PKeywords) : Bool :=
  match kws with
  | PKeywords.nil => false
  | PKeywords.cons _ v t => containsBad v || kwsContainBad t

end

mutual

/-- The expression contains a non-whitelisted construct in a position
the evaluator actually visits — like `containsBad`, except that the
keyword-argument values of calls are skipped, because `visit_Call`
never reads `node.keywords`. -/
def containsBadVisited (e : PExpr) : Bool :=
  match e with
  | PExpr.name id => decide (id ∉ allowed_names)
  | PExpr.constNum _ => false
  | PExpr.constBad => false
  | PExpr.binop op l r =>
    (decide (op ≠ "Add" ∧ op ≠ "Sub" ∧ op ≠ "Mult" ∧ op ≠ "Div"))
      || containsBadVisited l || containsBadVisited r
  | PExpr.unop op e => (decide (op ≠ "USub" ∧ op ≠ "UAdd")) || containsBadVisited e
  | PExpr.call f args _ =>
    match f with
    | PExpr.name fid => decide (fid ∉ allowed_funcs) || argsContainBadVisited args
    | _ => true
  | PExpr.attribute _ _ => true
  | PExpr.other _ => true

def argsContainBadVisited (args : PArgs) : Bool :=
  match args with
  | PArgs.nil => false
  | PArgs.cons a t => containsBadVisited a || argsContainBadVisited t

end

/-- Whether an `Except` result is an error. -/
def isErr {ε α : Type} : Except ε α → Bool
  | Except.error _ => true
  | Except.ok _ => false

/-! ### The policy rule engine (`policy_dsl.PolicyEngine`) -/

/-- One tier of a `tiered_cap` rule: `price_ct_per_kwh`, the truthiness
of `t.get("above")`, and `upto_kwh` (read only when not `above`). -/
structure Tier where
  price_ct_per_kwh : ℚ
  above : Bool
  upto_kwh : ℚ
  deriving DecidableEq, Repr

/-- `PolicyEngine._eval_tiers`'s loop: walk the tiers in order keeping
`remaining`, `total_ct` and `prev_cap`; a capped tier consumes
`max(0, min(remaining, upto - prev_cap))`, an `above` tier consumes
everything remaining; zero-quantity tiers are skipped (`continue`, but
`prev_cap` was already advanced); once `remaining` hits zero the loop
breaks and later tiers get nothing. -/
def eval_tiers_loop : List Tier → ℚ → ℚ → ℚ → ℚ
  | [], _, total_ct, _ => total_ct
  | t :: rest, remaining, total_ct, prev_cap =>
    let price := t.price_ct_per_kwh
    let qty := if t.above then remaining else max 0 (min remaining (t.upto_kwh - prev_cap))
    let prev_cap2 := if t.above then prev_cap else t.upto_kwh
    if qty ≤ 0 then eval_tiers_loop rest remaining total_ct prev_cap2
    else
      let total2 := total_ct + qty * price
      let remaining2 := remaining - qty
      if remaining2 ≤ 0 then total2
      else eval_tiers_loop rest remaining2 total2 prev_cap2

/-- `PolicyEngine._eval_tiers`: run the loop from zero and convert
cents to EUR with a four-decimal quantize. -/
def eval_tiers (tiers : List Tier) (kwh : ℚ) : ℚ :=
  quantize4 (eval_tiers_loop tiers kwh 0 0 / 100)

/-- The `applies_to` predicate of a rule (`None` means always
applies); each present facet must match. -/
structure AppliesTo where
  source : Option (List String)
  tags : Option (List String)
  role : Option String
  deriving DecidableEq, Repr

/-- `RuleOut`. -/
structure RuleOut where
  account : String
  sign : String
  deriving DecidableEq, Repr

/-- A parsed `Rule`.  `rate_expr` is the already-parsed expression tree
(`safe_eval` parses the string with `ast.parse`; the textual parsing is
not modelled); `params` is the numeric params dict; `beneficiary` is
the `role` value of the beneficiary dict if present. -/
structure Rule where
  id : String
  kind : String
  applies_to : Option AppliesTo
  depends_on : List String
  out : RuleOut
  params : List (String × ℚ)
  rate_expr : Option PExpr
  base_account : Option String
  accounts : Option (List String)
  beneficiary : Option String
  tiers : Option (List Tier)

/-- An event as the engine sees it: `source`, the tag list in
`meta["tags"]`, and `meta["kwh"]`. -/
structure Event where
  source : String
  tags : List String
  kwh : ℚ

/-- `PolicyEngine.applies`. -/
def applies (rule : Rule) (event : Event) (participant_role : Option String) : Bool :=
  match rule.applies_to with
  | none => true
  | some a =>
    let src_ok := match a.source with
      | none => true
      | some ss => ss.contains event.source
    let tags_ok := match a.tags with
      | none => true
      | some ts => event.tags.any (fun t => ts.contains t)
    let role_ok := match a.role with
      | none => true
      | some r => participant_role == some r
    src_ok && tags_ok && role_ok

/-- One trace entry of `evaluate_event`'s `evals` list.  `result_eur`
holds the recorded two-decimal signed result (`"0.00"` is `some 0`);
an unmatched rule records no result. -/
structure EvalRec where
  rule_id : String
  matched : Bool
  result_eur : Option ℚ
  beneficiary : Option String
  deriving DecidableEq, Repr

/-- `params["percent"] if params and "percent" in params else 0` (the
dataclass has no `percent` attribute, so the `__dict__` fallback is
always 0, and `or 0` keeps 0). -/
def percentParam (params : List (String × ℚ)) : ℚ := (getVal params "percent").getD 0

/-- The variable environment `inputs` that a `rate` rule builds:
`{"kwh": kwh}` updated with the rule params (params override `kwh`),
read with `.get(name, 0)`. -/
def rateInputs (params : List (String × ℚ)) (kwh : ℚ) : String → ℚ :=
  fun s => match getVal params s with
    | some v => v
    | none => if s = "kwh" then kwh else 0

/-- One iteration of `evaluate_event`'s rule loop, producing the
updated running accounts and the trace entry; a `ValueError` escaping
`safe_eval` propagates (`Except.error`). -/
def step_rule (event : Event) (participant_role : Option String)
    (operator_participant_id : Option ℤ) (accounts : List (String × ℚ))
    (rule : Rule) : Except String (List (String × ℚ) × EvalRec) :=
  if applies rule event participant_role = false then
    Except.ok (accounts, ⟨rule.id, false, none, none⟩)
  else
    let amountE : Except String (Option ℚ) :=
      if rule.kind = "rate" then
        (safe_eval_ast (rule.rate_expr.getD (PExpr.constNum 0))
          (rateInputs rule.params event.kwh)).map some
      else if rule.kind = "tiered_cap" then
        Except.ok (some (eval_tiers (rule.tiers.getD []) event.kwh))
      else if rule.kind = "percent_of_account" then
        let base := (getVal accounts (rule.base_account.getD "")).getD 0
        Except.ok (some (quantize4 (|base| * (percentParam rule.params / 100))))
      else if rule.kind = "percent_over_sum_accounts" then
        let base_sum := (((rule.accounts.getD []).map
          (fun n => (getVal accounts n).getD 0)).foldl (· + ·) 0)
        Except.ok (some (quantize4 (|base_sum| * (percentParam rule.params / 100))))
      else Except.ok none
    match amountE with
    | Except.error m => Except.error m
    | Except.ok none =>
      Except.ok (accounts, ⟨rule.id, true, some 0, none⟩)
    | Except.ok (some amount) =>
      let beneficiary :=
        if rule.beneficiary == some "OPERATOR" && operator_participant_id.isSome
        then some "OPERATOR" else none
      let signed_amount := if rule.out.sign = "+" then amount else -amount
      let accounts2 := addVal accounts rule.out.account signed_amount
      Except.ok (accounts2, ⟨rule.id, true, some (quantize2 signed_amount), beneficiary⟩)

/-- The rule loop of `PolicyEngine.evaluate_event`, threading the
running accounts and appending one trace entry per rule. -/
def eval_rules (event : Event) (participant_role : Option String)
    (operator_participant_id : Option ℤ) :
    List Rule → List (String × ℚ) → List EvalRec →
    Except String (List (String × ℚ) × List EvalRec)
  | [], accounts, evals => Except.ok (accounts, evals)
  | r :: rest, accounts, evals =>
    match step_rule event participant_role operator_participant_id accounts r with
    | Except.error m => Except.error m
    | Except.ok (accounts2, entry) =>
      eval_rules event participant_role operator_participant_id rest accounts2 (evals ++ [entry])

/-- `PolicyEngine.evaluate_event` for an already-ordered rule list:
the final running accounts (which `_accounts_to_ledger` returns as the
postings, one per account in insertion order) and the trace entries. -/
def evaluate_event (rules : List Rule) (event : Event)
    (participant_role : Option String) (operator_participant_id : Option ℤ) :
    Except String (List (String × ℚ) × List EvalRec) :=
  eval_rules event participant_role operator_participant_id rules [] []

/-! ### Rule ordering (`PolicyEngine._parse_policy`'s topo pass)

`add_rule` recursively pulls in the declared dependencies of a rule
before appending it; the recursion is unguarded in the source (a
dependency cycle recurses forever), so the embedding carries fuel and
returns `none` exactly when the source would not terminate within
`rules.length + 1` nesting levels — which, for an acyclic dependency
graph, it always does. -/

/-- `add_rule` of `_parse_policy`: state is `(ordered, added)`. -/
def add_rule (rules : List Rule) :
    ℕ → List Rule × List String → Rule → Option (List Rule × List String)
  | 0, _, _ => none
  | fuel + 1, st, rule => do
    let st1 ← rule.depends_on.foldlM
      (fun st dep =>
        if st.2.contains dep then pure st
        else (rules.filter (fun rr => rr.id == dep)).foldlM
          (fun st rr => add_rule rules fuel st rr) st)
      st
    pure (if st1.2.contains rule.id then st1
          else (st1.1 ++ [rule], st1.2 ++ [rule.id]))

/-- The ordering pass at the end of `_parse_policy`: run `add_rule`
over the document-order rule list and return the reordered rules. -/
def parse_policy_order (rules : List Rule) : Option (List Rule) :=
  (rules.foldlM (fun st rr => add_rule rules (rules.length + 1) st rr) ([], [])).map (·.1)

/-! ## Theorems

Helper lemmas first (association lists, cent values), then one theorem
per claim, each preceded by a doc comment naming the claim id. -/

theorem valsSum_nil {κ : Type} : valsSum ([] : List (κ × ℚ)) = 0 := rfl

theorem valsSum_cons {κ : Type} (x : κ × ℚ) (l : List (κ × ℚ)) :
    valsSum (x :: l) = x.2 + valsSum l := by
  simp [valsSum]

theorem valsSum_addVal {κ : Type} [BEq κ] (l : List (κ × ℚ)) (k : κ) (d : ℚ) :
    valsSum (addVal l k d) = valsSum l + d := by
  induction l with
  | nil => simp [addVal, valsSum]
  | cons x t ih =>
    obtain ⟨q, v⟩ := x
    by_cases h : (q == k) = true
    · simp only [addVal, h, if_true, valsSum_cons]
      ring
    · simp only [addVal, h, Bool.false_eq_true, if_false, valsSum_cons, ih]
      ring

theorem valsSum_setVal {κ : Type} [BEq κ] (l : List (κ × ℚ)) (k : κ) (x v : ℚ)
    (h : getVal l k = some v) :
    valsSum (setVal l k x) = valsSum l - v + x := by
  induction l with
  | nil => simp [getVal] at h
  | cons y t ih =>
    obtain ⟨q, w⟩ := y
    by_cases hq : (q == k) = true
    · simp only [getVal, List.find?, hq, Option.map_some'] at h
      cases h
      simp only [setVal, hq, if_true, valsSum_cons]
      ring
    · simp only [getVal, List.find?, hq] at h
      have h' : getVal t k = some v := by simpa [getVal] using h
      simp only [setVal, hq, Bool.false_eq_true, if_false, valsSum_cons, ih h']
      ring

theorem getVal_setVal_ne {κ α : Type} [BEq κ] [LawfulBEq κ] (l : List (κ × α)) (k k2 : κ) (x : α)
    (h : k2 ≠ k) : getVal (setVal l k x) k2 = getVal l k2 := by
  have hkk : (k == k2) = false := by
    simp only [beq_eq_false_iff_ne]
    exact fun hh => h hh.symm
  induction l with
  | nil => simp [setVal, getVal, List.find?, hkk]
  | cons y t ih =>
    obtain ⟨q, w⟩ := y
    by_cases hq : (q == k) = true
    · have hq' : q = k := by simpa [beq_iff_eq] using hq
      subst hq'
      have : (q == k2) = false := by
        simp [beq_iff_eq]
        intro hkk; exact h hkk.symm
      simp [setVal, getVal, List.find?, this]
    · simp only [setVal, hq, Bool.false_eq_true, if_false]
      by_cases hq2 : (q == k2) = true
      · simp [getVal, List.find?, hq2]
      · simp only [getVal, List.find?, hq2] at ih ⊢
        simpa [getVal] using ih

theorem getVal_addVal_ne {κ : Type} [BEq κ] [LawfulBEq κ] (l : List (κ × ℚ)) (k k2 : κ) (d : ℚ)
    (h : k2 ≠ k) : getVal (addVal l k d) k2 = getVal l k2 := by
  have hkk : (k == k2) = false := by
    simp only [beq_eq_false_iff_ne]
    exact fun hh => h hh.symm
  induction l with
  | nil => simp [addVal, getVal, List.find?, hkk]
  | cons y t ih =>
    obtain ⟨q, w⟩ := y
    by_cases hq : (q == k) = true
    · have hq' : q = k := by simpa [beq_iff_eq] using hq
      subst hq'
      have : (q == k2) = false := by
        simp [beq_iff_eq]
        intro hkk; exact h hkk.symm
      simp [addVal, getVal, List.find?, this]
    · simp only [addVal, hq, Bool.false_eq_true, if_false]
      by_cases hq2 : (q == k2) = true
      · simp [getVal, List.find?, hq2]
      · simp only [getVal, List.find?, hq2] at ih ⊢
        simpa [getVal] using ih

theorem getVal_of_nodup {κ α : Type} [BEq κ] [LawfulBEq κ] (l : List (κ × α)) (k : κ) (v : α)
    (hnd : (l.map Prod.fst).Nodup) (hm : (k, v) ∈ l) : getVal l k = some v := by
  induction l with
  | nil => cases hm
  | cons y t ih =>
    obtain ⟨q, w⟩ := y
    rcases List.mem_cons.mp hm with h1 | h1
    · cases h1
      simp [getVal, List.find?]
    · have hq : (q == k) = false := by
        simp only [List.map_cons, List.nodup_cons] at hnd
        have : k ∈ t.map Prod.fst := List.mem_map.mpr ⟨(k, v), h1, rfl⟩
        simp only [beq_eq_false_iff_ne]
        intro hqk; subst hqk; exact hnd.1 this
      have hnd' : (t.map Prod.fst).Nodup := by
        simp only [List.map_cons, List.nodup_cons] at hnd; exact hnd.2
      simp only [getVal, List.find?, hq]
      simpa [getVal] using ih hnd' h1

theorem fee_fold_sum (op : Pid) (pct : ℚ) :
    ∀ (orig acc : List (Pid × ℚ)),
      (orig.map Prod.fst).Nodup →
      (∀ p b, (p, b) ∈ orig → p ≠ op → getVal acc p = some b) →
      valsSum (orig.foldl
        (fun updated x =>
          if x.1 == op then updated
          else if 0 < x.2 then
            let fee := quantize2 (x.2 * pct)
            addVal (setVal updated x.1 (x.2 - fee)) op fee
          else updated)
        acc) = valsSum acc := by
  intro orig
  induction orig with
  | nil => intro acc _ _; rfl
  | cons x rest ih =>
    intro acc hnd hinv
    obtain ⟨p, b⟩ := x
    have hndr : (rest.map Prod.fst).Nodup := by
      simp only [List.map_cons, List.nodup_cons] at hnd; exact hnd.2
    have hpnotin : p ∉ rest.map Prod.fst := by
      simp only [List.map_cons, List.nodup_cons] at hnd; exact hnd.1
    by_cases hop : (p == op) = true
    · simp only [List.foldl_cons, hop, if_true]
      exact ih acc hndr (fun p2 b2 hm h2 => hinv p2 b2 (List.mem_cons_of_mem _ hm) h2)
    · have hpop : p ≠ op := by simpa [beq_eq_false_iff_ne] using hop
      by_cases hb : 0 < b
      · simp only [List.foldl_cons, hop, Bool.false_eq_true, if_false, hb, if_true]
        set fee := quantize2 (b * pct) with hfee
        set acc2 := addVal (setVal acc p (b - fee)) op fee with hacc2
        have hgv : getVal acc p = some b := hinv p b (List.mem_cons_self _ _) hpop
        have hsum2 : valsSum acc2 = valsSum acc := by
          rw [hacc2, valsSum_addVal, valsSum_setVal acc p _ b hgv]
          ring
        have hinv2 : ∀ p2 b2, (p2, b2) ∈ rest → p2 ≠ op → getVal acc2 p2 = some b2 := by
          intro p2 b2 hm h2
          have hp2p : p2 ≠ p := by
            intro hh; subst hh
            exact hpnotin (List.mem_map.mpr ⟨(p2, b2), hm, rfl⟩)
          rw [hacc2, getVal_addVal_ne _ _ _ _ h2, getVal_setVal_ne _ _ _ _ hp2p]
          exact hinv p2 b2 (List.mem_cons_of_mem _ hm) h2
        rw [ih acc2 hndr hinv2, hsum2]
      · simp only [List.foldl_cons, hop, Bool.false_eq_true, if_false, hb]
        exact ih acc hndr (fun p2 b2 hm h2 => hinv p2 b2 (List.mem_cons_of_mem _ hm) h2)

/-- Claim C10: the operator-fee pass conserves the grand total — for
every balances map (with the dict's distinct keys), operator id and fee
percentage, the summed balances after `_apply_operator_fee` equal the
summed input balances; and when the operator id is absent, or the
percentage is zero, the map is returned unchanged. -/
theorem apply_operator_fee_conserves (balances : List (Pid × ℚ))
    (op : Option Pid) (pct : ℚ) (o : Pid)
    (hnd : (balances.map Prod.fst).Nodup) :
    valsSum (apply_operator_fee balances op pct) = valsSum balances ∧
    apply_operator_fee balances none pct = balances ∧
    apply_operator_fee balances (some o) 0 = balances := by
  refine ⟨?_, rfl, by simp [apply_operator_fee]⟩
  match op with
  | none => rfl
  | some opid =>
    by_cases hz : pct = 0
    · simp [apply_operator_fee, hz]
    · simp only [apply_operator_fee, hz, if_false]
      exact fee_fold_sum opid pct balances balances hnd
        (fun p b hm _ => getVal_of_nodup balances p b hnd hm)

/-- Witness for C10 at a concrete balances map. -/
theorem apply_operator_fee_conserves_witness :
    valsSum (apply_operator_fee [(1, (3 : ℚ)), (2, -2)] (some 5) 1)
        = valsSum [(1, (3 : ℚ)), (2, -2)] ∧
    apply_operator_fee [(1, (3 : ℚ)), (2, -2)] none 1 = [(1, (3 : ℚ)), (2, -2)] ∧
    apply_operator_fee [(1, (3 : ℚ)), (2, -2)] (some 5) 0 = [(1, (3 : ℚ)), (2, -2)] :=
  apply_operator_fee_conserves [(1, (3 : ℚ)), (2, -2)] (some 5) 1 5 (by decide)

theorem c1_graph_eval (fc vc : ℚ) :
    balances_to_graph [(1, (-1/50 : ℚ)), (2, 1/50)] fc vc
      = Except.ok (NetGraph.mk [(1, 2)] [(2, 2)] 2 (to_cents fc)
          (max 1 (qtrunc (vc * 100000)))) := by
  have hneg : ((-1/50 : ℚ) < 0) := by norm_num
  have hpos : ¬((0:ℚ) < -1/50) := by norm_num
  have hpos2 : ((0:ℚ) < 1/50) := by norm_num
  have hneg2 : ¬((1/50 : ℚ) < 0) := by norm_num
  have hc : to_cents (-(-1/50 : ℚ)) = 2 := by
    rw [to_cents, halfUpZ]
    norm_num
  have hc2 : to_cents ((1/50 : ℚ)) = 2 := by
    rw [to_cents, halfUpZ]
    norm_num
  simp only [balances_to_graph, totalDebtCents, totalCreditCents, debtorsOf, creditorsOf,
    List.filter, decide_eq_true_eq, hneg, hpos, hpos2, hneg2, if_true, if_false,
    List.map_cons, List.map_nil, List.sum_cons, List.sum_nil]
  norm_num [hc, hc2]

/-- Claim C1 (code defect at the failing input): for the balanced map
`{1: -0.02, 2: +0.02}` the imbalance check passes and the graph is
built, but the graph admits no feasible flow at all — the single
activation edge `D_1 → ACT_1_2` has capacity 1 cent while the source
must push 2 cents through `D_1` — so `network_simplex` (which returns
a feasible flow or raises `NetworkXUnfeasible`) cannot return
transfers, for every fixed and variable cost. -/
theorem optimize_edges_unfeasible_minimal (fc vc : ℚ) :
    balances_to_graph [(1, (-1/50 : ℚ)), (2, 1/50)] fc vc
      = Except.ok (NetGraph.mk [(1, 2)] [(2, 2)] 2 (to_cents fc)
          (max 1 (qtrunc (vc * 100000)))) ∧
    (∀ f : NetFlow, ¬ Feasible (NetGraph.mk [(1, 2)] [(2, 2)] 2 (to_cents fc)
          (max 1 (qtrunc (vc * 100000)))) f) ∧
    (∀ solve : NetGraph → Option NetFlow,
      (∀ g f, solve g = some f → Feasible g f) →
      optimize_edges solve [(1, (-1/50 : ℚ)), (2, 1/50)] fc vc
        = Except.error "NetworkXUnfeasible") := by
  refine ⟨c1_graph_eval fc vc, ?_, ?_⟩
  · intro f hF
    obtain ⟨_, hdaCap, _, _, hconsD, _, _, hsrc, _⟩ := hF
    have h1 : f.sd 1 = 2 := by
      simpa using hsrc
    have h2 : f.sd 1 = f.da 1 2 := by
      have := hconsD (1, 2) (by simp)
      simpa using this
    have h3 := (hdaCap 1 2).2
    omega
  · intro solve hsolve
    simp only [optimize_edges, List.isEmpty_cons, Bool.false_eq_true, if_false,
      c1_graph_eval fc vc]
    cases hs : solve (NetGraph.mk [(1, 2)] [(2, 2)] 2 (to_cents fc)
        (max 1 (qtrunc (vc * 100000)))) with
    | none => rfl
    | some f =>
      exact absurd (hsolve _ f hs)
        (by
          intro hF
          obtain ⟨_, hdaCap, _, _, hconsD, _, _, hsrc, _⟩ := hF
          have h1 : f.sd 1 = 2 := by simpa using hsrc
          have h2 : f.sd 1 = f.da 1 2 := by
            have := hconsD (1, 2) (by simp)
            simpa using this
          have h3 := (hdaCap 1 2).2
          omega)

theorem halfEvenZ_intCast (n : ℤ) : halfEvenZ (n : ℚ) = n := by
  unfold halfEvenZ
  norm_num

theorem quantize2_isCents (q : ℚ) (h : IsCents q) : quantize2 q = q := by
  obtain ⟨n, hn⟩ := h
  unfold quantize2
  rw [hn, halfEvenZ_intCast]
  have h100 : (100 : ℚ) ≠ 0 := by norm_num
  field_simp at hn ⊢
  linarith [hn]

theorem isCents_quantize2 (q : ℚ) : IsCents (quantize2 q) := by
  refine ⟨halfEvenZ (q * 100), ?_⟩
  unfold quantize2
  field_simp

theorem isCents_sub (a b : ℚ) (ha : IsCents a) (hb : IsCents b) : IsCents (a - b) := by
  obtain ⟨n, hn⟩ := ha
  obtain ⟨m, hm⟩ := hb
  exact ⟨n - m, by push_cast; rw [sub_mul, hn, hm]⟩

theorem isCents_add (a b : ℚ) (ha : IsCents a) (hb : IsCents b) : IsCents (a + b) := by
  obtain ⟨n, hn⟩ := ha
  obtain ⟨m, hm⟩ := hb
  exact ⟨n + m, by push_cast; rw [add_mul, hn, hm]⟩

theorem isCents_from_cents (i : ℤ) : IsCents (from_cents i) := by
  refine ⟨i, ?_⟩
  unfold from_cents
  field_simp

theorem quantize2_one : quantize2 1 = 1 :=
  quantize2_isCents 1 ⟨100, by norm_num⟩

theorem to_cents_one : to_cents 1 = 100 := by
  unfold to_cents halfUpZ
  norm_num

theorem balances_to_graph_ok_iff (balances : List (Pid × ℚ)) (fc vc : ℚ) :
    (∃ g, balances_to_graph balances fc vc = Except.ok g) ↔
      (totalDebtCents balances - totalCreditCents balances).natAbs ≤ 1 := by
  unfold balances_to_graph
  by_cases h : 1 < (totalDebtCents balances - totalCreditCents balances).natAbs
  · simp only [h, if_true]
    constructor
    · rintro ⟨g, hg⟩; cases hg
    · intro hle; omega
  · simp only [h, if_false]
    constructor
    · intro _; omega
    · intro _; exact ⟨_, rfl⟩

theorem optimize_edges_imbalance (solve : NetGraph → Option NetFlow)
    (balances : List (Pid × ℚ)) (fc vc : ℚ) (hne : balances ≠ [])
    (him : 1 < (totalDebtCents balances - totalCreditCents balances).natAbs) :
    optimize_edges solve balances fc vc = Except.error "Imbalance in totals (rounding)" := by
  have hempty : balances.isEmpty = false := by
    cases balances with
    | nil => exact absurd rfl hne
    | cons a t => rfl
  rw [optimize_edges]
  simp only [hempty, Bool.false_eq_true, if_false, balances_to_graph, him, if_true]

theorem close_day_imbalance (solve : NetGraph → Option NetFlow) (db : Db)
    (label dateStr : String) (fee fc vc : ℚ)
    (hopen : ((getOrCreateDay db label dateStr).2.status == "closed") = false)
    (hne : apply_operator_fee (compute_day_balances (getOrCreateDay db label dateStr).1 label dateStr)
        (getOrCreateDay db label dateStr).1.operatorId fee ≠ [])
    (him : 1 < (totalDebtCents (apply_operator_fee
        (compute_day_balances (getOrCreateDay db label dateStr).1 label dateStr)
        (getOrCreateDay db label dateStr).1.operatorId fee)
      - totalCreditCents (apply_operator_fee
        (compute_day_balances (getOrCreateDay db label dateStr).1 label dateStr)
        (getOrCreateDay db label dateStr).1.operatorId fee)).natAbs) :
    close_trading_day solve db label dateStr fee fc vc
      = ({ (getOrCreateDay db label dateStr).1 with
            dayNets := (getOrCreateDay db label dateStr).1.dayNets
              ++ (apply_operator_fee
                    (compute_day_balances (getOrCreateDay db label dateStr).1 label dateStr)
                    (getOrCreateDay db label dateStr).1.operatorId fee).map
                  (fun x => DayNetRec.mk label dateStr x.1 x.2) },
          Except.error "Imbalance in totals (rounding)") := by
  rw [close_trading_day]
  rcases hd : getOrCreateDay db label dateStr with ⟨db1, day⟩
  rw [hd] at hopen hne him
  simp only at hopen hne him ⊢
  rw [hopen]
  simp only [Bool.false_eq_true, if_false]
  rw [optimize_edges_imbalance solve _ fc vc hne him]

theorem month_settlement_imbalance (solve : NetGraph → Option NetFlow) (db : Db)
    (label pv : String) (fee fc vc : ℚ)
    (hne : apply_operator_fee (compute_month_balances db label) db.operatorId fee ≠ [])
    (him : 1 < (totalDebtCents (apply_operator_fee (compute_month_balances db label) db.operatorId fee)
      - totalCreditCents (apply_operator_fee (compute_month_balances db label) db.operatorId fee)).natAbs) :
    run_monthly_settlement solve db label pv fee fc vc
      = (db, Except.error "Imbalance in totals (rounding)") := by
  rw [run_monthly_settlement, optimize_edges_imbalance solve _ fc vc hne him]

/-- Claim C4 (amended): after converting balances to integer cents with
half-up rounding, the optimization is accepted exactly when debtor and
creditor totals differ by at most one minor unit; a larger difference
fails with the fatal imbalance error before any graph solving (the
result does not consult the solver), aborting the enclosing close.  In
the month-close path nothing has been persisted at that point, but in
the day-close path the per-participant DayNets committed before the
optimizer run remain persisted while the day stays open. -/
theorem imbalance_check_behavior :
    (∀ (balances : List (Pid × ℚ)) (fc vc : ℚ),
      (∃ g, balances_to_graph balances fc vc = Except.ok g) ↔
        (totalDebtCents balances - totalCreditCents balances).natAbs ≤ 1) ∧
    (∀ (solve : NetGraph → Option NetFlow) (balances : List (Pid × ℚ)) (fc vc : ℚ),
      balances ≠ [] →
      1 < (totalDebtCents balances - totalCreditCents balances).natAbs →
      optimize_edges solve balances fc vc = Except.error "Imbalance in totals (rounding)") ∧
    (∀ (solve : NetGraph → Option NetFlow) (db : Db) (label dateStr : String) (fee fc vc : ℚ),
      ((getOrCreateDay db label dateStr).2.status == "closed") = false →
      apply_operator_fee (compute_day_balances (getOrCreateDay db label dateStr).1 label dateStr)
        (getOrCreateDay db label dateStr).1.operatorId fee ≠ [] →
      1 < (totalDebtCents (apply_operator_fee
            (compute_day_balances (getOrCreateDay db label dateStr).1 label dateStr)
            (getOrCreateDay db label dateStr).1.operatorId fee)
          - totalCreditCents (apply_operator_fee
            (compute_day_balances (getOrCreateDay db label dateStr).1 label dateStr)
            (getOrCreateDay db label dateStr).1.operatorId fee)).natAbs →
      close_trading_day solve db label dateStr fee fc vc
        = ({ (getOrCreateDay db label dateStr).1 with
              dayNets := (getOrCreateDay db label dateStr).1.dayNets
                ++ (apply_operator_fee
                      (compute_day_balances (getOrCreateDay db label dateStr).1 label dateStr)
                      (getOrCreateDay db label dateStr).1.operatorId fee).map
                    (fun x => DayNetRec.mk label dateStr x.1 x.2) },
            Except.error "Imbalance in totals (rounding)")) ∧
    (∀ (solve : NetGraph → Option NetFlow) (db : Db) (label pv : String) (fee fc vc : ℚ),
      apply_operator_fee (compute_month_balances db label) db.operatorId fee ≠ [] →
      1 < (totalDebtCents (apply_operator_fee (compute_month_balances db label) db.operatorId fee)
          - totalCreditCents (apply_operator_fee (compute_month_balances db label) db.operatorId fee)).natAbs →
      run_monthly_settlement solve db label pv fee fc vc
        = (db, Except.error "Imbalance in totals (rounding)")) :=
  ⟨balances_to_graph_ok_iff,
   optimize_edges_imbalance,
   close_day_imbalance,
   month_settlement_imbalance⟩

theorem totalDebt_one_credit : totalDebtCents [((1:ℤ), (1:ℚ))] = 0 := by
  have h : ¬((1:ℚ) < 0) := by norm_num
  simp [totalDebtCents, debtorsOf, List.filter, h]

theorem totalCredit_one_credit : totalCreditCents [((1:ℤ), (1:ℚ))] = 100 := by
  have h : ((0:ℚ) < 1) := by norm_num
  simp [totalCreditCents, creditorsOf, List.filter, h, to_cents_one]

/-- The concrete day-close state for the C4 counterexample: one open
day with a single ledger posting of `+1.00` and nothing else. -/
def dbImb : Db :=
  { cycles := [("2025-01", "open")]
    days := [⟨"2025-01", "2025-01-15", "open"⟩]
    ledger := [⟨"2025-01", "2025-01-15", 1, 1⟩]
    dayNets := []
    transfers := []
    operatorId := none
    policies := []
    runs := []
    payouts := [] }

/-- Claim C4 counterexample: closing this day fails with the imbalance
error, yet the per-participant DayNet row has been persisted — the
claim's "no partial persistence" is false on the day-close path. -/
theorem close_day_imbalance_persists :
    close_trading_day (fun _ => none) dbImb "2025-01" "2025-01-15" 0 0 0
      = ({ dbImb with dayNets := [⟨"2025-01", "2025-01-15", 1, 1⟩] },
         Except.error "Imbalance in totals (rounding)") ∧
    ({ dbImb with dayNets := [⟨"2025-01", "2025-01-15", 1, 1⟩] }).dayNets ≠ dbImb.dayNets := by
  constructor
  · have hbal : apply_operator_fee
        (compute_day_balances (getOrCreateDay dbImb "2025-01" "2025-01-15").1 "2025-01" "2025-01-15")
        (getOrCreateDay dbImb "2025-01" "2025-01-15").1.operatorId 0 = [(1, (1:ℚ))] := by
      show [((1:ℤ), quantize2 1)] = [(1, (1:ℚ))]
      rw [quantize2_one]
    have h1 := close_day_imbalance (fun _ => none) dbImb "2025-01" "2025-01-15" 0 0 0
      rfl
      (by rw [hbal]; simp)
      (by rw [hbal, totalDebt_one_credit, totalCredit_one_credit]; norm_num)
    rw [h1, hbal]
    rfl
  · simp [dbImb]

/-- Witness for the amended C4 theorem at a concrete imbalanced map. -/
theorem imbalance_check_behavior_witness :
    optimize_edges (fun _ => none) [((1:ℤ), (1:ℚ))] 0 0
      = Except.error "Imbalance in totals (rounding)" :=
  imbalance_check_behavior.2.1 (fun _ => none) [((1:ℤ), (1:ℚ))] 0 0
    (by simp)
    (by rw [totalDebt_one_credit, totalCredit_one_credit]; norm_num)

/-- Claim C3: closing a billing cycle that is open but still has `n > 0`
open TradingDays fails with the state error naming `n`, and performs no
mutation — the returned state is exactly the input state, so the cycle
status stays open and no SettlementRun or PayoutInstruction rows are
persisted. -/
theorem close_cycle_open_days_rejected (solve : NetGraph → Option NetFlow)
    (db : Db) (label pv : String) (fc vc : ℚ) (n : ℕ)
    (hc : db.cycles.find? (fun c => c.1 == label) = some (label, "open"))
    (hn : openDayCount db label = n) (hpos : 0 < n) :
    close_cycle solve db label pv fc vc = (db, Except.error (CycleErr.openDays n)) := by
  rw [close_cycle, getOrCreateCycle, hc]
  have hno : (("open" : String) == "closed") = false := by decide
  simp only [hno, Bool.false_eq_true, if_false, hn]
  have hne : n ≠ 0 := Nat.pos_iff_ne_zero.mp hpos
  simp [hne]

/-- Witness for C3: a cycle with one open trading day. -/
theorem close_cycle_open_days_rejected_witness :
    close_cycle (fun _ => none)
        (Db.mk [("2025-01", "open")] [⟨"2025-01", "2025-01-03", "open"⟩] [] [] [] none [] [] [])
        "2025-01" "v1" 0 0
      = (Db.mk [("2025-01", "open")] [⟨"2025-01", "2025-01-03", "open"⟩] [] [] [] none [] [] [],
         Except.error (CycleErr.openDays 1)) :=
  close_cycle_open_days_rejected (fun _ => none) _ "2025-01" "v1" 0 0 1 rfl rfl (by decide)

/-- The transfer sort key as a lexicographic triple. -/
def transferKey (t : TransferRec) : ℤ ×ₗ (ℤ ×ₗ String) :=
  toLex (t.from_id, toLex (t.to_id, t.amount_eur))

theorem transferLe_iff_key (a b : TransferRec) :
    transferLe a b ↔ transferKey a ≤ transferKey b := by
  unfold transferLe transferKey
  rw [Prod.Lex.le_iff, Prod.Lex.le_iff]

theorem transferKey_inj (a b : TransferRec) (h : transferKey a = transferKey b) : a = b := by
  unfold transferKey at h
  have h1 := toLex_inj.mp h
  rw [Prod.mk.injEq] at h1
  obtain ⟨h2, h3⟩ := h1
  have h4 := toLex_inj.mp h3
  rw [Prod.mk.injEq] at h4
  cases a
  cases b
  simp_all

instance : IsTotal TransferRec transferLe :=
  ⟨fun a b => by
    rw [transferLe_iff_key, transferLe_iff_key]
    exact le_total _ _⟩

instance : IsTrans TransferRec transferLe :=
  ⟨fun a b c hab hbc => by
    rw [transferLe_iff_key] at hab hbc ⊢
    exact le_trans hab hbc⟩

instance : IsAntisymm TransferRec transferLe :=
  ⟨fun a b hab hba => by
    rw [transferLe_iff_key] at hab hba
    exact transferKey_inj a b (le_antisymm hab hba)⟩

/-- Claim C9: the audit hash is independent of extraction order — any
two permutations of a transfer record list produce the same
`merkleish_hash`, because the records are sorted by
`(from_id, to_id, amount_eur)` before canonical serialization and
hashing. -/
theorem merkleish_hash_perm_invariant (xs ys : List TransferRec) (h : xs.Perm ys) :
    merkleish_hash xs = merkleish_hash ys := by
  have hsx := List.sorted_insertionSort transferLe xs
  have hsy := List.sorted_insertionSort transferLe ys
  have hperm : (xs.insertionSort transferLe).Perm (ys.insertionSort transferLe) :=
    ((List.perm_insertionSort transferLe xs).trans h).trans
      (List.perm_insertionSort transferLe ys).symm
  have heq : xs.insertionSort transferLe = ys.insertionSort transferLe :=
    List.eq_of_perm_of_sorted hperm hsx hsy
  unfold merkleish_hash transfersJson
  rw [heq]

/-- Witness for C9: two records in swapped order hash identically. -/
theorem merkleish_hash_perm_invariant_witness :
    merkleish_hash [TransferRec.mk 3 4 "2.00", TransferRec.mk 1 2 "1.00"]
      = merkleish_hash [TransferRec.mk 1 2 "1.00", TransferRec.mk 3 4 "2.00"] :=
  merkleish_hash_perm_invariant _ _ (List.Perm.swap _ _ _)

mutual

theorem containsBadVisited_eval_err (e : PExpr) (vars : String → ℚ)
    (h : containsBadVisited e = true) : isErr (safe_eval_ast e vars) = true := by
  match e with
  | PExpr.name id =>
    have hid : id ∉ allowed_names := by simpa [containsBadVisited] using h
    simp [safe_eval_ast, hid, isErr]
  | PExpr.constNum v => simp [containsBadVisited] at h
  | PExpr.constBad => simp [containsBadVisited] at h
  | PExpr.binop op l r =>
    rw [safe_eval_ast]
    cases hl : safe_eval_ast l vars with
    | error m => simp [isErr]
    | ok a =>
      cases hr : safe_eval_ast r vars with
      | error m => simp [isErr]
      | ok b =>
        have h2 := h
        simp only [containsBadVisited, Bool.or_eq_true, decide_eq_true_eq] at h2
        have hops : op ≠ "Add" ∧ op ≠ "Sub" ∧ op ≠ "Mult" ∧ op ≠ "Div" := by
          rcases h2 with (h1 | h1) | h1
          · exact h1
          · have := containsBadVisited_eval_err l vars h1
            rw [hl] at this
            simp [isErr] at this
          · have := containsBadVisited_eval_err r vars h1
            rw [hr] at this
            simp [isErr] at this
        simp [hops.1, hops.2.1, hops.2.2.1, hops.2.2.2, isErr]
  | PExpr.unop op e1 =>
    rw [safe_eval_ast]
    cases he : safe_eval_ast e1 vars with
    | error m => simp [isErr]
    | ok v =>
      have h2 := h
      simp only [containsBadVisited, Bool.or_eq_true, decide_eq_true_eq] at h2
      have hops : op ≠ "USub" ∧ op ≠ "UAdd" := by
        rcases h2 with h1 | h1
        · exact h1
        · have := containsBadVisited_eval_err e1 vars h1
          rw [he] at this
          simp [isErr] at this
      simp [hops.1, hops.2, isErr]
  | PExpr.call f args kws =>
    match f with
    | PExpr.name fid =>
      rw [safe_eval_ast]
      by_cases hf : fid ∈ allowed_funcs
      · have h2 := h
        simp only [containsBadVisited, Bool.or_eq_true, decide_eq_true_eq] at h2
        have hargs : argsContainBadVisited args = true := by
          rcases h2 with h1 | h1
          · exact absurd hf h1
          · exact h1
        have := argsContainBadVisited_eval_err args vars hargs
        cases ha : eval_args args vars with
        | error m => simp [hf, isErr]
        | ok vs =>
          rw [ha] at this
          simp [isErr] at this
      · simp [hf, isErr]
    | PExpr.constNum v => simp [safe_eval_ast, isErr]
    | PExpr.constBad => simp [safe_eval_ast, isErr]
    | PExpr.binop op l r => simp [safe_eval_ast, isErr]
    | PExpr.unop op e1 => simp [safe_eval_ast, isErr]
    | PExpr.call f2 args2 kws2 => simp [safe_eval_ast, isErr]
    | PExpr.attribute e1 at1 => simp [safe_eval_ast, isErr]
    | PExpr.other k => simp [safe_eval_ast, isErr]
  | PExpr.attribute e1 a1 => simp [safe_eval_ast, isErr]
  | PExpr.other k => simp [safe_eval_ast, isErr]

theorem argsContainBadVisited_eval_err (args : PArgs) (vars : String → ℚ)
    (h : argsContainBadVisited args = true) : isErr (eval_args args vars) = true := by
  match args with
  | PArgs.nil => simp [argsContainBadVisited] at h
  | PArgs.cons a t =>
    rw [eval_args]
    cases ha : safe_eval_ast a vars with
    | error m => simp [isErr]
    | ok v =>
      cases ht : eval_args t vars with
      | error m => simp [isErr]
      | ok vs =>
        have h2 := h
        simp only [argsContainBadVisited, Bool.or_eq_true] at h2
        rcases h2 with h1 | h1
        · have := containsBadVisited_eval_err a vars h1
          rw [ha] at this
          simp [isErr] at this
        · have := argsContainBadVisited_eval_err t vars h1
          rw [ht] at this
          simp [isErr] at this

end

/-- Claim C5 counterexample: `min(7, k=zzz)` contains the
non-whitelisted identifier `zzz`, yet `safe_eval` succeeds and returns
7, because `visit_Call` never reads the call's `keywords` — the
closed-whitelist claim as stated is false of the program. -/
theorem safe_eval_keyword_hole :
    containsBad (PExpr.call (PExpr.name "min")
        (PArgs.cons (PExpr.constNum 7) PArgs.nil)
        (PKeywords.cons (some "k") (PExpr.name "zzz") PKeywords.nil)) = true ∧
    safe_eval_ast (PExpr.call (PExpr.name "min")
        (PArgs.cons (PExpr.constNum 7) PArgs.nil)
        (PKeywords.cons (some "k") (PExpr.name "zzz") PKeywords.nil))
      (fun _ => 0) = Except.ok 7 :=
  ⟨rfl, rfl⟩

/-- Claim C5 (amended): the sandbox is a closed whitelist over every
position the evaluator visits — evaluation fails whenever the
expression contains, outside keyword-argument values of calls, an
identifier outside the allowed variable set, an attribute access, a
call outside min/max/round, an operator outside the allowed
arithmetic, or any unvisited syntax node; and an evaluation that
succeeds did so on an expression whose visited parts are built
entirely from whitelisted constructs.  Keyword-argument values are
silently ignored, so disallowed constructs there do not cause
rejection (see the counterexample). -/
theorem safe_eval_visited_whitelist (e : PExpr) (vars : String → ℚ) :
    (containsBadVisited e = true → isErr (safe_eval_ast e vars) = true) ∧
    (∀ v : ℚ, safe_eval_ast e vars = Except.ok v → containsBadVisited e = false) := by
  refine ⟨containsBadVisited_eval_err e vars, fun v hok => ?_⟩
  rcases Bool.eq_false_or_eq_true (containsBadVisited e) with hb | hb
  · have := containsBadVisited_eval_err e vars hb
    rw [hok] at this
    simp [isErr] at this
  · exact hb

/-- Witness for the amended C5 at a concrete rejected expression (an
attribute access on an allowed name, in a visited position). -/
theorem safe_eval_visited_whitelist_witness :
    isErr (safe_eval_ast (PExpr.attribute (PExpr.name "kwh") "denominator")
      (fun _ => 0)) = true :=
  (safe_eval_visited_whitelist (PExpr.attribute (PExpr.name "kwh") "denominator")
    (fun _ => 0)).1 rfl

theorem quantize4_740 : quantize4 (740 / 100 : ℚ) = 740 / 100 := by
  unfold quantize4
  have h : (740 / 100 : ℚ) * 10000 = ((74000 : ℤ) : ℚ) := by norm_num
  rw [h, halfEvenZ_intCast]
  norm_num

/-- Claim C7: the `tiered_cap` tariff partitions the quantity across
the ordered tiers, caps each non-final tier at its bound, prices each
consumed share at the tier price, sums and divides by 100; with tiers
`[{upto 50, price 10}, {above, price 8}]` and quantity 80 the result is
`(50·10 + 30·8)/100 = 7.40`, and any tiers appended after the quantity
is exhausted receive nothing and do not change the result. -/
theorem tiered_cap_example (rest : List Tier) :
    eval_tiers (Tier.mk 10 false 50 :: Tier.mk 8 true 0 :: rest) 80 = 7.40 := by
  unfold eval_tiers
  have hq1 : (if (Tier.mk (10:ℚ) false 50).above then (80:ℚ)
      else max 0 (min 80 ((Tier.mk (10:ℚ) false 50).upto_kwh - 0))) = 50 := by
    norm_num [min_def, max_def]
  have hloop : eval_tiers_loop (Tier.mk 10 false 50 :: Tier.mk 8 true 0 :: rest) 80 0 0 = 740 := by
    rw [eval_tiers_loop]
    norm_num [min_def, max_def]
    rw [eval_tiers_loop]
    norm_num
  rw [hloop]
  rw [show ((740 : ℚ)) / 100 = (740 / 100 : ℚ) from rfl] at *
  rw [quantize4_740]
  norm_num

theorem eval_rules_factor (event : Event) (role : Option String) (op : Option ℤ) :
    ∀ (rules : List Rule) (acc : List (String × ℚ)) (evs : List EvalRec),
      eval_rules event role op rules acc evs
        = (eval_rules event role op rules acc []).map (fun out => (out.1, evs ++ out.2)) := by
  intro rules
  induction rules with
  | nil => intro acc evs; simp [eval_rules, Except.map]
  | cons r rest ih =>
    intro acc evs
    rw [eval_rules, eval_rules]
    cases hs : step_rule event role op acc r with
    | error m => simp [Except.map]
    | ok out =>
      obtain ⟨acc2, entry⟩ := out
      simp only [List.nil_append]
      rw [ih acc2 (evs ++ [entry]), ih acc2 [entry]]
      cases he : eval_rules event role op rest acc2 [] with
      | error m => simp [Except.map]
      | ok out2 => simp [Except.map, List.append_assoc]

theorem step_rule_unknown (event : Event) (role : Option String) (op : Option ℤ)
    (r : Rule) (h1 : r.kind ≠ "rate") (h2 : r.kind ≠ "tiered_cap")
    (h3 : r.kind ≠ "percent_of_account") (h4 : r.kind ≠ "percent_over_sum_accounts")
    (ha : applies r event role = true) (accounts : List (String × ℚ)) :
    step_rule event role op accounts r
      = Except.ok (accounts, EvalRec.mk r.id true (some 0) none) := by
  rw [step_rule]
  simp only [ha, Bool.true_eq_false, if_false, h1, h2, h3, h4, if_neg, if_false]

/-- Claim C8: a rule with an unrecognized kind that applies to the
event does not make `evaluate_event` fail — its step returns the
accounts unchanged and records a matched trace entry with the zero
result (`"0.00"`), so the full evaluation equals the evaluation without
that rule, with the zero entry inserted at the rule's position in the
trace. -/
theorem unknown_kind_zero_noop (pre post : List Rule) (r : Rule) (event : Event)
    (role : Option String) (op : Option ℤ)
    (h1 : r.kind ≠ "rate") (h2 : r.kind ≠ "tiered_cap")
    (h3 : r.kind ≠ "percent_of_account") (h4 : r.kind ≠ "percent_over_sum_accounts")
    (ha : applies r event role = true) :
    (∀ accounts, step_rule event role op accounts r
        = Except.ok (accounts, EvalRec.mk r.id true (some 0) none)) ∧
    evaluate_event (pre ++ r :: post) event role op
      = (evaluate_event (pre ++ post) event role op).map
          (fun out => (out.1, out.2.insertIdx pre.length (EvalRec.mk r.id true (some 0) none))) := by
  refine ⟨step_rule_unknown event role op r h1 h2 h3 h4 ha, ?_⟩
  unfold evaluate_event
  have aux : ∀ (pre2 : List Rule) (acc : List (String × ℚ)),
      eval_rules event role op (pre2 ++ r :: post) acc []
        = (eval_rules event role op (pre2 ++ post) acc []).map
            (fun out => (out.1, out.2.insertIdx pre2.length (EvalRec.mk r.id true (some 0) none))) := by
    intro pre2
    induction pre2 with
    | nil =>
      intro acc
      simp only [List.nil_append, List.length_nil]
      rw [eval_rules, step_rule_unknown event role op r h1 h2 h3 h4 ha acc]
      simp only [List.nil_append]
      rw [eval_rules_factor event role op post acc [EvalRec.mk r.id true (some 0) none]]
      cases he : eval_rules event role op post acc [] with
      | error m => simp [Except.map]
      | ok out2 => simp [Except.map, List.insertIdx_zero]
    | cons p pre' ih =>
      intro acc
      simp only [List.cons_append, List.length_cons]
      rw [eval_rules, eval_rules]
      cases hs : step_rule event role op acc p with
      | error m => simp [Except.map]
      | ok out =>
        obtain ⟨acc2, entry⟩ := out
        simp only [List.nil_append]
        rw [eval_rules_factor event role op (pre' ++ r :: post) acc2 [entry],
          eval_rules_factor event role op (pre' ++ post) acc2 [entry], ih acc2]
        cases he : eval_rules event role op (pre' ++ post) acc2 [] with
        | error m => simp [Except.map]
        | ok out2 => simp [Except.map, List.insertIdx_succ_cons]
  exact aux pre []

/-- Witness for C8: a one-rule policy with the future kind
`"carbon_adjustment"`. -/
theorem unknown_kind_zero_noop_witness :
    evaluate_event [Rule.mk "x" "carbon_adjustment" none [] (RuleOut.mk "acct" "-")
        [] none none none none none] (Event.mk "grid" [] 0) none none
      = (evaluate_event [] (Event.mk "grid" [] 0) none none).map
          (fun out => (out.1, out.2.insertIdx 0 (EvalRec.mk "x" true (some 0) none))) :=
  (unknown_kind_zero_noop [] []
      (Rule.mk "x" "carbon_adjustment" none [] (RuleOut.mk "acct" "-") [] none none none none none)
      (Event.mk "grid" [] 0) none none
      (by decide) (by decide) (by decide) (by decide) rfl).2

/-- Invariant of the `_parse_policy` ordering state `(ordered, added)`:
`added` is exactly the ids of `ordered` in order, every ordered rule
comes from the policy's rule list, and every ordered rule's
dependencies that exist in the rule list appear among the ids of
earlier ordered rules. -/
def OrderInv (rules : List Rule) (st : List Rule × List String) : Prop :=
  st.2 = st.1.map Rule.id ∧
  (∀ r ∈ st.1, r ∈ rules) ∧
  ∀ i : ℕ, ∀ hi : i < st.1.length, ∀ d ∈ (st.1[i]).depends_on,
    (∃ rr ∈ rules, rr.id = d) → d ∈ (st.1.take i).map Rule.id

theorem orderInv_mono (rules : List Rule) (st st' : List Rule × List String)
    (h1 : OrderInv rules st) (h2 : OrderInv rules st')
    (hext : ∃ ext, st'.1 = st.1 ++ ext) (a : String) (ha : a ∈ st.2) : a ∈ st'.2 := by
  obtain ⟨ext, hx⟩ := hext
  rw [h2.1, hx, List.map_append, List.mem_append]
  left
  rw [h1.1] at ha
  exact ha

theorem add_rule_spec (rules : List Rule) :
    ∀ (fuel : ℕ) (st : List Rule × List String) (r : Rule) (st' : List Rule × List String),
      add_rule rules fuel st r = some st' → OrderInv rules st → r ∈ rules →
      OrderInv rules st' ∧ (∃ ext, st'.1 = st.1 ++ ext) ∧ r.id ∈ st'.2 := by
  intro fuel
  induction fuel with
  | zero => intro st r st' h; simp [add_rule] at h
  | succ fuel ih =>
    have matchFold : ∀ (l : List Rule) (st st' : List Rule × List String),
        l.foldlM (fun st rr => add_rule rules fuel st rr) st = some st' →
        OrderInv rules st → (∀ rr ∈ l, rr ∈ rules) →
        OrderInv rules st' ∧ (∃ ext, st'.1 = st.1 ++ ext) ∧ ∀ rr ∈ l, rr.id ∈ st'.2 := by
      intro l
      induction l with
      | nil =>
        intro st st' h hinv _
        simp only [List.foldlM_nil] at h
        cases h
        exact ⟨hinv, ⟨[], by simp⟩, by simp⟩
      | cons x t ihl =>
        intro st st' h hinv hmem
        rw [List.foldlM_cons] at h
        cases hx : add_rule rules fuel st x with
        | none => rw [hx] at h; cases h
        | some st1 =>
          rw [hx] at h
          obtain ⟨hinv1, hext1, hid1⟩ := ih st x st1 hx hinv (hmem x (by simp))
          obtain ⟨hinv2, hext2, hids2⟩ := ihl st1 st' h hinv1 (fun rr hm => hmem rr (by simp [hm]))
          refine ⟨hinv2, ?_, ?_⟩
          · obtain ⟨e1, he1⟩ := hext1
            obtain ⟨e2, he2⟩ := hext2
            exact ⟨e1 ++ e2, by rw [he2, he1, List.append_assoc]⟩
          · intro rr hm
            rcases List.mem_cons.mp hm with hh | hh
            · subst hh
              exact orderInv_mono rules st1 st' hinv1 hinv2 hext2 rr.id hid1
            · exact hids2 rr hh
    have depFold : ∀ (deps : List String) (st st' : List Rule × List String),
        deps.foldlM
          (fun st dep =>
            if st.2.contains dep then pure st
            else (rules.filter (fun rr => rr.id == dep)).foldlM
              (fun st rr => add_rule rules fuel st rr) st)
          st = some st' →
        OrderInv rules st →
        OrderInv rules st' ∧ (∃ ext, st'.1 = st.1 ++ ext) ∧
          ∀ d ∈ deps, (∃ rr ∈ rules, rr.id = d) → d ∈ st'.2 := by
      intro deps
      induction deps with
      | nil =>
        intro st st' h hinv
        simp only [List.foldlM_nil] at h
        cases h
        exact ⟨hinv, ⟨[], by simp⟩, by simp⟩
      | cons d t ihd =>
        intro st st' h hinv
        rw [List.foldlM_cons] at h
        by_cases hc : st.2.contains d = true
        · rw [if_pos hc] at h
          simp only [Option.pure_def, Option.some_bind] at h
          obtain ⟨hinv2, hext2, hds2⟩ := ihd st st' h hinv
          refine ⟨hinv2, hext2, ?_⟩
          intro d2 hm hex
          rcases List.mem_cons.mp hm with hh | hh
          · subst hh
            exact orderInv_mono rules st st' hinv hinv2 hext2 d2
              (by simpa using hc)
          · exact hds2 d2 hh hex
        · rw [if_neg hc] at h
          cases hf : (rules.filter (fun rr => rr.id == d)).foldlM
              (fun st rr => add_rule rules fuel st rr) st with
          | none => rw [hf] at h; cases h
          | some st1 =>
            rw [hf] at h
            obtain ⟨hinv1, hext1, hids1⟩ := matchFold _ st st1 hf hinv
              (fun rr hm => (List.mem_filter.mp hm).1)
            obtain ⟨hinv2, hext2, hds2⟩ := ihd st1 st' h hinv1
            refine ⟨hinv2, ?_, ?_⟩
            · obtain ⟨e1, he1⟩ := hext1
              obtain ⟨e2, he2⟩ := hext2
              exact ⟨e1 ++ e2, by rw [he2, he1, List.append_assoc]⟩
            · intro d2 hm hex
              rcases List.mem_cons.mp hm with hh | hh
              · subst hh
                obtain ⟨rr, hrr, hrid⟩ := hex
                have hrf : rr ∈ rules.filter (fun rr => rr.id == d2) :=
                  List.mem_filter.mpr ⟨hrr, by simp [hrid]⟩
                have : rr.id ∈ st1.2 := hids1 rr hrf
                rw [hrid] at this
                exact orderInv_mono rules st1 st' hinv1 hinv2 hext2 d2 this
              · exact hds2 d2 hh hex
    intro st r st' h hinv hr
    rw [add_rule] at h
    cases hd : r.depends_on.foldlM
        (fun st dep =>
          if st.2.contains dep then pure st
          else (rules.filter (fun rr => rr.id == dep)).foldlM
            (fun st rr => add_rule rules fuel st rr) st)
        st with
    | none => rw [hd] at h; cases h
    | some st1 =>
      rw [hd] at h
      have h2 : (if st1.2.contains r.id = true then st1
          else (st1.1 ++ [r], st1.2 ++ [r.id])) = st' := Option.some.inj h
      obtain ⟨hinv1, hext1, hds1⟩ := depFold _ st st1 hd hinv
      by_cases hc : st1.2.contains r.id = true
      · rw [if_pos hc] at h2
        subst h2
        exact ⟨hinv1, hext1, by simpa using hc⟩
      · rw [if_neg hc] at h2
        subst h2
        obtain ⟨hmap, hsub, htopo⟩ := hinv1
        have hlen : st1.1.length < (st1.1 ++ [r]).length := by simp
        refine ⟨⟨?_, ?_, ?_⟩, ?_, ?_⟩
        · simp [hmap]
        · intro x hx
          rcases List.mem_append.mp hx with hh | hh
          · exact hsub x hh
          · rcases List.mem_singleton.mp hh with rfl
            exact hr
        · intro i hi d hd2 hex
          rcases Nat.lt_or_ge i st1.1.length with hlt | hge
          · have hget : (st1.1 ++ [r])[i] = st1.1[i] := List.getElem_append_left hlt
            rw [hget] at hd2
            have := htopo i hlt d hd2 hex
            rw [List.take_append_of_le_length (Nat.le_of_lt hlt)]
            exact this
          · have hieq : i = st1.1.length := by
              simp only [List.length_append, List.length_singleton] at hi
              omega
            subst hieq
            have hget : (st1.1 ++ [r])[st1.1.length] = r := by
              rw [List.getElem_append_right (Nat.le_refl _)]
              simp
            rw [hget] at hd2
            have : d ∈ st1.2 := hds1 d hd2 hex
            rw [List.take_append_of_le_length (Nat.le_refl _), List.take_length]
            rw [hmap] at this
            exact this
        · obtain ⟨e1, he1⟩ := hext1
          exact ⟨e1 ++ [r], by simp [he1]⟩
        · simp

theorem fold_add_rule_spec (rules : List Rule) (fuel : ℕ) :
    ∀ (l : List Rule) (st st' : List Rule × List String),
      l.foldlM (fun st rr => add_rule rules fuel st rr) st = some st' →
      OrderInv rules st → (∀ rr ∈ l, rr ∈ rules) →
      OrderInv rules st' ∧ (∃ ext, st'.1 = st.1 ++ ext) ∧ ∀ rr ∈ l, rr.id ∈ st'.2 := by
  intro l
  induction l with
  | nil =>
    intro st st' h hinv _
    simp only [List.foldlM_nil] at h
    cases h
    exact ⟨hinv, ⟨[], by simp⟩, by simp⟩
  | cons x t ihl =>
    intro st st' h hinv hmem
    rw [List.foldlM_cons] at h
    cases hx : add_rule rules fuel st x with
    | none => rw [hx] at h; cases h
    | some st1 =>
      rw [hx] at h
      obtain ⟨hinv1, hext1, hid1⟩ := add_rule_spec rules fuel st x st1 hx hinv (hmem x (by simp))
      obtain ⟨hinv2, hext2, hids2⟩ := ihl st1 st' h hinv1 (fun rr hm => hmem rr (by simp [hm]))
      refine ⟨hinv2, ?_, ?_⟩
      · obtain ⟨e1, he1⟩ := hext1
        obtain ⟨e2, he2⟩ := hext2
        exact ⟨e1 ++ e2, by rw [he2, he1, List.append_assoc]⟩
      · intro rr hm
        rcases List.mem_cons.mp hm with hh | hh
        · subst hh
          exact orderInv_mono rules st1 st' hinv1 hinv2 hext2 rr.id hid1
        · exact hids2 rr hh

/-- Claim C6 (amended): for a policy whose rules' declared dependency
ids all exist, whenever the ordering pass of `_parse_policy` completes
(as it does on every acyclic dependency graph), the produced order is
topological — every rule appears after all rules named in its
dependency set, and every rule of the policy appears.  The first-seen
tie-breaking part of the original claim is false (see the
counterexample): a rule pulled in early as a dependency precedes
independent rules that occur earlier in the document. -/
theorem parse_policy_topological (rules ordered : List Rule)
    (hdeps : ∀ r ∈ rules, ∀ d ∈ r.depends_on, ∃ rr ∈ rules, rr.id = d)
    (h : parse_policy_order rules = some ordered) :
    (∀ i : ℕ, ∀ hi : i < ordered.length, ∀ d ∈ (ordered[i]).depends_on,
       d ∈ (ordered.take i).map Rule.id) ∧
    ∀ r ∈ rules, r.id ∈ ordered.map Rule.id := by
  unfold parse_policy_order at h
  cases hf : rules.foldlM (fun st rr => add_rule rules (rules.length + 1) st rr) ([], []) with
  | none => rw [hf] at h; cases h
  | some stF =>
    rw [hf] at h
    have hred : stF.1 = ordered := by
      simpa using h
    subst hred
    have hinit : OrderInv rules ([], []) := by
      refine ⟨rfl, by simp, ?_⟩
      intro i hi
      simp at hi
    obtain ⟨hinv, _, hall⟩ :=
      fold_add_rule_spec rules (rules.length + 1) rules ([], []) stF hf hinit (fun rr hm => hm)
    constructor
    · intro i hi d hd
      have hmem : stF.1[i] ∈ stF.1 := List.getElem_mem hi
      exact hinv.2.2 i hi d hd (hdeps _ (hinv.2.1 _ hmem) d hd)
    · intro r hr
      have := hall r hr
      rw [hinv.1] at this
      exact this

/-- Document-order rules for the C6 counterexample: `C` depends on `B`;
`A` and `B` are independent of everything. -/
def ruleA : Rule :=
  Rule.mk "A" "rate" none [] (RuleOut.mk "a" "-") [] none none none none none

def ruleB : Rule :=
  Rule.mk "B" "rate" none [] (RuleOut.mk "b" "-") [] none none none none none

def ruleC : Rule :=
  Rule.mk "C" "rate" none ["B"] (RuleOut.mk "c" "-") [] none none none none none

/-- Claim C6 counterexample: on the document order `[C, A, B]` the pass
emits `[B, C, A]` — `A` and `B` carry no ordering constraint and `A`
precedes `B` in the document, yet `B` precedes `A` in the output, so
first-seen-stable tie-breaking among independent rules is false. -/
theorem parse_policy_order_not_first_seen :
    parse_policy_order [ruleC, ruleA, ruleB] = some [ruleB, ruleC, ruleA] ∧
    ruleA.depends_on = [] ∧
    ruleB.depends_on = [] ∧
    List.indexOf "A" ([ruleC, ruleA, ruleB].map Rule.id) <
      List.indexOf "B" ([ruleC, ruleA, ruleB].map Rule.id) ∧
    ¬ (List.indexOf "A" ([ruleB, ruleC, ruleA].map Rule.id) <
      List.indexOf "B" ([ruleB, ruleC, ruleA].map Rule.id)) :=
  ⟨rfl, rfl, rfl, by decide, by decide⟩

/-- Witness for the amended C6 theorem on the counterexample policy. -/
theorem parse_policy_topological_witness :
    (∀ i : ℕ, ∀ hi : i < ([ruleB, ruleC, ruleA] : List Rule).length,
       ∀ d ∈ (([ruleB, ruleC, ruleA] : List Rule)[i]).depends_on,
       d ∈ (([ruleB, ruleC, ruleA] : List Rule).take i).map Rule.id) ∧
    ∀ r ∈ [ruleC, ruleA, ruleB], r.id ∈ ([ruleB, ruleC, ruleA] : List Rule).map Rule.id :=
  parse_policy_topological [ruleC, ruleA, ruleB] [ruleB, ruleC, ruleA]
    (by
      intro r hr d hd
      rcases List.mem_cons.mp hr with h1 | h1
      · subst h1
        rcases List.mem_singleton.mp hd with rfl
        exact ⟨ruleB, by simp, rfl⟩
      rcases List.mem_cons.mp h1 with h2 | h2
      · subst h2
        cases hd
      rcases List.mem_singleton.mp h2 with rfl
      cases hd)
    rfl

theorem isCents_setVal {κ : Type} [BEq κ] (l : List (κ × ℚ)) (k : κ) (x : ℚ)
    (hl : ∀ y ∈ l, IsCents y.2) (hx : IsCents x) :
    ∀ y ∈ setVal l k x, IsCents y.2 := by
  induction l with
  | nil =>
    intro y hy
    rcases List.mem_singleton.mp hy with rfl
    exact hx
  | cons z t ih =>
    obtain ⟨q, v⟩ := z
    intro y hy
    by_cases hq : (q == k) = true
    · simp only [setVal, hq, if_true] at hy
      rcases List.mem_cons.mp hy with rfl | hh
      · exact hx
      · exact hl y (List.mem_cons_of_mem _ hh)
    · simp only [setVal, hq, Bool.false_eq_true, if_false] at hy
      rcases List.mem_cons.mp hy with rfl | hh
      · exact hl (q, v) (by simp)
      · exact ih (fun z hz => hl z (List.mem_cons_of_mem _ hz)) y hh

theorem isCents_addVal {κ : Type} [BEq κ] (l : List (κ × ℚ)) (k : κ) (d : ℚ)
    (hl : ∀ y ∈ l, IsCents y.2) (hd : IsCents d) :
    ∀ y ∈ addVal l k d, IsCents y.2 := by
  induction l with
  | nil =>
    intro y hy
    rcases List.mem_singleton.mp hy with rfl
    exact hd
  | cons z t ih =>
    obtain ⟨q, v⟩ := z
    intro y hy
    by_cases hq : (q == k) = true
    · simp only [addVal, hq, if_true] at hy
      rcases List.mem_cons.mp hy with rfl | hh
      · exact isCents_add v d (hl (q, v) (by simp)) hd
      · exact hl y (List.mem_cons_of_mem _ hh)
    · simp only [addVal, hq, Bool.false_eq_true, if_false] at hy
      rcases List.mem_cons.mp hy with rfl | hh
      · exact hl (q, v) (by simp)
      · exact ih (fun z hz => hl z (List.mem_cons_of_mem _ hz)) y hh

theorem compute_day_balances_isCents (db : Db) (l d : String) :
    ∀ x ∈ compute_day_balances db l d, IsCents x.2 := by
  intro x hx
  unfold compute_day_balances at hx
  rcases List.mem_map.mp hx with ⟨y, _, rfl⟩
  exact isCents_quantize2 y.2

theorem compute_month_balances_isCents (db : Db) (l : String) :
    ∀ x ∈ compute_month_balances db l, IsCents x.2 := by
  intro x hx
  unfold compute_month_balances at hx
  rcases List.mem_map.mp hx with ⟨y, _, rfl⟩
  exact isCents_quantize2 y.2

theorem apply_operator_fee_isCents (balances : List (Pid × ℚ)) (op : Option Pid) (pct : ℚ)
    (hb : ∀ x ∈ balances, IsCents x.2) :
    ∀ x ∈ apply_operator_fee balances op pct, IsCents x.2 := by
  match op with
  | none => exact hb
  | some opid =>
    by_cases hz : pct = 0
    · simpa [apply_operator_fee, hz] using hb
    · simp only [apply_operator_fee, hz, if_false]
      have main : ∀ (orig acc : List (Pid × ℚ)),
          (∀ x ∈ orig, IsCents x.2) → (∀ x ∈ acc, IsCents x.2) →
          ∀ x ∈ orig.foldl
            (fun updated x =>
              if x.1 == opid then updated
              else if 0 < x.2 then
                let fee := quantize2 (x.2 * pct)
                addVal (setVal updated x.1 (x.2 - fee)) opid fee
              else updated)
            acc, IsCents x.2 := by
        intro orig
        induction orig with
        | nil => intro acc _ hacc; exact hacc
        | cons z rest ih =>
          intro acc horig hacc
          obtain ⟨p, b⟩ := z
          have hrest : ∀ x ∈ rest, IsCents x.2 :=
            fun x hx => horig x (List.mem_cons_of_mem _ hx)
          have hbv : IsCents b := horig (p, b) (by simp)
          by_cases hp : (p == opid) = true
          · simp only [List.foldl_cons, hp, if_true]
            exact ih acc hrest hacc
          · by_cases hpos : 0 < b
            · simp only [List.foldl_cons, hp, Bool.false_eq_true, if_false, hpos, if_true]
              refine ih _ hrest ?_
              exact isCents_addVal _ _ _
                (isCents_setVal _ _ _ hacc
                  (isCents_sub b _ hbv (isCents_quantize2 _)))
                (isCents_quantize2 _)
            · simp only [List.foldl_cons, hp, Bool.false_eq_true, if_false, hpos]
              exact ih acc hrest hacc
      exact main balances balances hb hb

theorem optimize_edges_isCents (solve : NetGraph → Option NetFlow)
    (balances : List (Pid × ℚ)) (fc vc : ℚ) (edges : List (Pid × Pid × ℚ))
    (h : optimize_edges solve balances fc vc = Except.ok edges) :
    ∀ e ∈ edges, IsCents e.2.2 := by
  rw [optimize_edges] at h
  by_cases hemp : balances.isEmpty = true
  · rw [if_pos hemp] at h
    cases h
    intro e he
    cases he
  · rw [if_neg hemp] at h
    cases hg : balances_to_graph balances fc vc with
    | error m => rw [hg] at h; cases h
    | ok g =>
      rw [hg] at h
      have h2 : (match solve g with
          | none => Except.error "NetworkXUnfeasible"
          | some f => Except.ok (extract_edges g f)) = Except.ok edges := h
      clear h
      cases hs : solve g with
      | none => rw [hs] at h2; cases h2
      | some f =>
        rw [hs] at h2
        cases h2
        intro e he
        unfold extract_edges at he
        rcases List.mem_flatten.mp he with ⟨l0, hl0, hel0⟩
        rcases List.mem_map.mp hl0 with ⟨dd, _, rfl⟩
        rcases List.mem_filterMap.mp hel0 with ⟨cc, _, hcc⟩
        by_cases hpos : (0 : ℤ) < f.ac dd.1 cc.1
        · simp only [hpos, if_true] at hcc
          cases hcc
          exact isCents_from_cents _
        · simp only [hpos, if_false] at hcc
          cases hcc

theorem closeFirstDay_find (days : List DayRec) (l d : String) (day : DayRec)
    (h : days.find? (fun x => x.cycleLabel == l && x.dateStr == d) = some day) :
    (closeFirstDay days l d).find? (fun x => x.cycleLabel == l && x.dateStr == d)
      = some { day with status := "closed" } := by
  induction days with
  | nil => cases h
  | cons x t ih =>
    by_cases hx : (x.cycleLabel == l && x.dateStr == d) = true
    · rw [@List.find?_cons_of_pos DayRec (fun x => x.cycleLabel == l && x.dateStr == d) x t hx] at h
      cases h
      rw [closeFirstDay, if_pos hx]
      exact @List.find?_cons_of_pos DayRec (fun x => x.cycleLabel == l && x.dateStr == d)
        { day with status := "closed" } t hx
    · rw [@List.find?_cons_of_neg DayRec (fun x => x.cycleLabel == l && x.dateStr == d) x t hx] at h
      rw [closeFirstDay, if_neg hx,
        @List.find?_cons_of_neg DayRec (fun x => x.cycleLabel == l && x.dateStr == d) x
          (closeFirstDay t l d) hx]
      exact ih h

theorem getOrCreateDay_spec (db : Db) (l d : String) :
    (getOrCreateDay db l d).1.ledger = db.ledger ∧
    (getOrCreateDay db l d).1.dayNets = db.dayNets ∧
    (getOrCreateDay db l d).1.transfers = db.transfers ∧
    (getOrCreateDay db l d).1.operatorId = db.operatorId ∧
    (∃ c, (getOrCreateDay db l d).1.cycles.find? (fun c => c.1 == l) = some c) ∧
    (getOrCreateDay db l d).1.days.find?
      (fun x => x.cycleLabel == l && x.dateStr == d) = some (getOrCreateDay db l d).2 := by
  unfold getOrCreateDay getOrCreateCycle
  cases hc : db.cycles.find? (fun c => c.1 == l) with
  | some c =>
    cases hd : db.days.find? (fun x => x.cycleLabel == l && x.dateStr == d) with
    | some day => simp [hd, hc]
    | none => simp [hd, hc, List.find?_append, List.find?]
  | none =>
    cases hd : db.days.find? (fun x => x.cycleLabel == l && x.dateStr == d) with
    | some day => simp [hd, hc, List.find?_append, List.find?]
    | none => simp [hd, hc, List.find?_append, List.find?]

/-- Claim C2: re-closing an already-closed day does not recompute or
persist anything — after a successful `close_trading_day`, invoking it
again on the resulting state (with any solver, fee or cost parameters)
returns the same state, the same per-participant nets, and the same
audit hash over the same persisted internal transfers. -/
theorem close_day_idempotent
    (solve solve2 : NetGraph → Option NetFlow) (db : Db) (label dateStr : String)
    (fee fee2 fc fc2 vc vc2 : ℚ) (db2 : Db) (out : DayCloseOut)
    (hstray : (dayNetsFor db label dateStr = [] ∧ transfersFor db label dateStr = []) ∨
      ((getOrCreateDay db label dateStr).2.status == "closed") = true)
    (h : close_trading_day solve db label dateStr fee fc vc = (db2, Except.ok out)) :
    close_trading_day solve2 db2 label dateStr fee2 fc2 vc2 = (db2, Except.ok out) := by
  rcases hg : getOrCreateDay db label dateStr with ⟨db1, day⟩
  obtain ⟨hled, hdn, htr, hop, hcycE, hfind⟩ := getOrCreateDay_spec db label dateStr
  obtain ⟨c0, hcyc⟩ := hcycE
  rw [hg] at hled hdn htr hop hcyc hfind
  simp only at hled hdn htr hop hcyc hfind
  rw [close_trading_day, hg] at h
  simp only at h
  by_cases hclosed : (day.status == "closed") = true
  · rw [if_pos hclosed] at h
    have hdb : db1 = db2 := congrArg Prod.fst h
    have hout := Except.ok.inj (congrArg Prod.snd h)
    subst hdb
    subst hout
    have hg2 : getOrCreateDay db1 label dateStr = (db1, day) := by
      rw [getOrCreateDay, getOrCreateCycle, hcyc]
      simp only
      rw [hfind]
    rw [close_trading_day, hg2]
    simp only
    rw [if_pos hclosed]
  · rw [if_neg hclosed] at h
    set bal := apply_operator_fee (compute_day_balances db1 label dateStr) db1.operatorId fee with hbal
    cases hopt : optimize_edges solve bal fc vc with
    | error e =>
      rw [hopt] at h
      simp at h
    | ok edges =>
      rw [hopt] at h
      simp only at h
      have hdb2 := congrArg Prod.fst h
      have hout := Except.ok.inj (congrArg Prod.snd h)
      simp only at hdb2 hout
      subst hdb2
      subst hout
      have hstray2 : dayNetsFor db label dateStr = [] ∧ transfersFor db label dateStr = [] := by
        rcases hstray with hs | hs
        · exact hs
        · rw [hg] at hs
          exact absurd hs hclosed
      have hbcents : ∀ x ∈ bal, IsCents x.2 := by
        rw [hbal]
        exact apply_operator_fee_isCents _ _ _ (compute_day_balances_isCents db1 label dateStr)
      have hecents := optimize_edges_isCents solve bal fc vc edges hopt
      have hs1 : db.dayNets.filter (fun r => r.cycleLabel == label && r.dateStr == dateStr) = [] := hstray2.1
      have hs2 : db.transfers.filter (fun r => r.cycleLabel == label && r.dateStr == dateStr) = [] := hstray2.2
      set R : Db := { cycles := db1.cycles, days := closeFirstDay db1.days label dateStr, ledger := db1.ledger, dayNets := db1.dayNets ++ bal.map (fun x => DayNetRec.mk label dateStr x.1 x.2), transfers := db1.transfers ++ edges.map (fun e => TransferRow.mk label dateStr e.1 e.2.1 e.2.2), operatorId := db1.operatorId, policies := db1.policies, runs := db1.runs, payouts := db1.payouts } with hR
      have hg4 : getOrCreateDay R label dateStr = (R, { day with status := "closed" }) := by
        rw [getOrCreateDay, getOrCreateCycle]
        simp only [hR]
        rw [hcyc]
        simp only
        rw [closeFirstDay_find db1.days label dateStr day hfind]
      rw [close_trading_day, hg4]
      simp only
      rw [if_pos (show (({ day with status := "closed" } : DayRec).status == "closed") = true by rfl)]
      have hnets : dayNetsFor R label dateStr = bal.map (fun x => DayNetRec.mk label dateStr x.1 x.2) := by
        unfold dayNetsFor
        simp only [hR, List.filter_append, hdn, hs1, List.nil_append]
        exact List.filter_eq_self.mpr (by
          intro a ha
          rcases List.mem_map.mp ha with ⟨x, _, rfl⟩
          simp)
      have htrs : transfersFor R label dateStr = edges.map (fun e => TransferRow.mk label dateStr e.1 e.2.1 e.2.2) := by
        unfold transfersFor
        simp only [hR, List.filter_append, htr, hs2, List.nil_append]
        exact List.filter_eq_self.mpr (by
          intro a ha
          rcases List.mem_map.mp ha with ⟨x, _, rfl⟩
          simp)
      rw [hnets, htrs, List.map_map, List.map_map]
      have hmap1 : bal.map ((fun r : DayNetRec => (r.pid, decStr (quantize2 r.net))) ∘ (fun x : Pid × ℚ => DayNetRec.mk label dateStr x.1 x.2)) = bal.map (fun x => (x.1, decStr x.2)) := by
        apply List.map_congr_left
        intro x hx
        simp only [Function.comp]
        rw [quantize2_isCents x.2 (hbcents x hx)]
      have hmap2 : edges.map ((fun r : TransferRow => TransferRec.mk r.fromId r.toId (decStr (quantize2 r.amount))) ∘ (fun e : Pid × Pid × ℚ => TransferRow.mk label dateStr e.1 e.2.1 e.2.2)) = edges.map (fun e => TransferRec.mk e.1 e.2.1 (decStr e.2.2)) := by
        apply List.map_congr_left
        intro e he
        simp only [Function.comp]
        rw [quantize2_isCents e.2.2 (hecents e he)]
      rw [hmap1, hmap2]

/-- Witness for C2: closing an empty fresh day, then re-closing it,
returns the identical state, nets and audit hash. -/
theorem close_day_idempotent_witness :
    close_trading_day (fun _ => none) (Db.mk [] [] [] [] [] none [] [] [])
        "2025-01" "2025-01-15" 0 0 0
      = (Db.mk [("2025-01", "open")] [DayRec.mk "2025-01" "2025-01-15" "closed"]
            [] [] [] none [] [] [],
         Except.ok (DayCloseOut.mk "closed" [] (merkleish_hash []))) ∧
    close_trading_day (fun _ => none)
        (Db.mk [("2025-01", "open")] [DayRec.mk "2025-01" "2025-01-15" "closed"]
            [] [] [] none [] [] [])
        "2025-01" "2025-01-15" 0 0 0
      = (Db.mk [("2025-01", "open")] [DayRec.mk "2025-01" "2025-01-15" "closed"]
            [] [] [] none [] [] [],
         Except.ok (DayCloseOut.mk "closed" [] (merkleish_hash []))) := by
  refine ⟨rfl, ?_⟩
  exact close_day_idempotent (fun _ => none) (fun _ => none)
    (Db.mk [] [] [] [] [] none [] [] []) "2025-01" "2025-01-15" 0 0 0 0 0 0 _ _
    (Or.inl ⟨rfl, rfl⟩) rfl

/-- Witness companion for C7 with no appended tiers. -/
theorem tiered_cap_example_witness :
    eval_tiers [Tier.mk 10 false 50, Tier.mk 8 true 0] 80 = 7.40 :=
  tiered_cap_example []
